import Mathlib

/-!
Shallow embedding of the thermodynamic-annealing solvers (8-queens and
Sudoku) from the repository sources src/queens.rs and src/sudoku.rs.

The random source (rand StdRng in the source) is modelled as an explicit
oracle structure Rng: a stream of naturals (one entry consumed per
random_range call), a boolean oracle for the Metropolis random_bool draw
(the f64 probability exp(-delta/temperature).min(1.0) is a function of
delta and temperature, so the draw is modelled as an oracle of the draw
index together with those two inputs), and shuffle oracles guaranteed to
return permutations of their input, matching SliceRandom::shuffle.  The
field fair states that the stream, read from any position, eventually
yields a value differing from any fixed value modulo any bound of at
least two; a uniform random source has this property, and it makes the
resample-until-different loops of the source total.  Floating-point
temperatures are modelled with rationals.
-/

structure Rng where
  natStream : Nat → Nat
  boolStream : Nat → Int → Rat → Bool
  shuffleNat : Nat → List Nat → List Nat
  shufflePair : Nat → List (Nat × Nat) → List (Nat × Nat)
  idx : Nat
  fair : ∀ start n c, 2 ≤ n → ∃ k, natStream (start + k) % n ≠ c
  shuffleNat_perm : ∀ i l, (shuffleNat i l).Perm l
  shufflePair_perm : ∀ i l, (shufflePair i l).Perm l

def Rng.bump (g : Rng) : Rng := { g with idx := g.idx + 1 }

/-- Model of rng.random_range(0..n): one draw from the stream, reduced mod n. -/
def Rng.randRange (g : Rng) (n : Nat) : Nat × Rng :=
  (g.natStream g.idx % n, g.bump)

/-- Model of the draw-then-resample-while-equal loops of the source: draw
random_range(0..n) values, re-drawing while the value equals c.  The first
draw the loop would keep is the one at the least stream offset whose value
modulo n differs from c; totality comes from fairness of the stream. -/
def Rng.randRangeNe (g : Rng) (n c : Nat) (h : 2 ≤ n) : Nat × Rng :=
  let k := Nat.find (g.fair g.idx n c h)
  (g.natStream (g.idx + k) % n, { g with idx := g.idx + k + 1 })

/-- Model of rng.random_bool(probability) in the Metropolis test; the
probability is determined by delta and temperature, so the oracle takes the
draw index, delta and temperature. -/
def Rng.metropolisDraw (g : Rng) (delta : Int) (temp : Rat) : Bool × Rng :=
  (g.boolStream g.idx delta temp, g.bump)

/-- One columns.shuffle(rng) call on a list of naturals. -/
def Rng.shuffleNatDraw (g : Rng) (l : List Nat) : List Nat × Rng :=
  (g.shuffleNat g.idx l, g.bump)

/-- One coords.shuffle(rng) call on a list of coordinate pairs. -/
def Rng.shufflePairDraw (g : Rng) (l : List (Nat × Nat)) : List (Nat × Nat) × Rng :=
  (g.shufflePair g.idx l, g.bump)

/-! ## Queens: data model (src/queens.rs) -/

structure QueenRun where
  state : List Nat
  steps : Nat
  deriving DecidableEq

structure QueensConfig where
  max_steps : Nat
  start_temp : Rat
  cooling_rate : Rat

structure CollectionResult where
  runs : List QueenRun
  restarts : Nat
  total_steps : Nat

/-- Conflict between rows i and j (shared column, or shared diagonal via the
i16 absolute-difference test), as in the pair test of queen_conflict_count. -/
def qconflict (s : List Nat) (i j : Nat) : Prop :=
  s.getD i 0 = s.getD j 0 ∨
    ((s.getD i 0 : Int) - (s.getD j 0 : Int)).natAbs = ((i : Int) - (j : Int)).natAbs

instance (s : List Nat) (i j : Nat) : Decidable (qconflict s i j) := by
  unfold qconflict; infer_instance

/-- Embedding of queen_conflict_count: the nested loops over i and over
j in (i+1)..8 accumulate one unit per conflicting pair. -/
def queen_conflict_count (s : List Nat) : Nat :=
  ∑ i ∈ Finset.range 8, ∑ j ∈ Finset.range 8, if i < j ∧ qconflict s i j then 1 else 0

/-- Embedding of random_queen_state: shuffle the column list 0..7. -/
def random_queen_state (g : Rng) : List Nat × Rng :=
  g.shuffleNatDraw (List.range 8)

structure QState where
  cols : List Nat
  energy : Nat
  temp : Rat
  rng : Rng

/-- One iteration body of the solve_single loop (executed when energy is
nonzero): choose a row, resample a different column for it, recompute the
energy, accept or reject by the Metropolis rule (restoring the previous
column on reject), and advance the cooling schedule. -/
def queensStep (cfg : QueensConfig) (s : QState) : QState :=
  let d1 := s.rng.randRange 8
  let row := d1.1
  let current := s.cols.getD row 0
  let d2 := d1.2.randRangeNe 8 current (by norm_num)
  let candidate := d2.1
  let cols2 := s.cols.set row candidate
  let newE := queen_conflict_count cols2
  let delta : Int := (newE : Int) - (s.energy : Int)
  let d3 := if delta ≤ 0 then (true, d2.2) else d2.2.metropolisDraw delta s.temp
  let temp2 := max (s.temp * cfg.cooling_rate) (1 / 4)
  if d3.1 then
    { cols := cols2, energy := newE, temp := temp2, rng := d3.2 }
  else
    { cols := cols2.set row current, energy := s.energy, temp := temp2, rng := d3.2 }

/-- Embedding of the bounded for-loop of solve_single: the zero-energy check
runs before each iteration body, and the fuel counts the remaining loop
iterations; step is the loop counter, returned as the step count. -/
def solveSingleLoop (cfg : QueensConfig) : Nat → Nat → QState → Option QueenRun × Rng
  | 0, _, s => (none, s.rng)
  | fuel + 1, step, s =>
    if s.energy = 0 then (some ⟨s.cols, step⟩, s.rng)
    else solveSingleLoop cfg fuel (step + 1) (queensStep cfg s)

/-- Initial loop state of solve_single. -/
def initQ (cfg : QueensConfig) (g : Rng) : QState :=
  let d := random_queen_state g
  { cols := d.1, energy := queen_conflict_count d.1, temp := cfg.start_temp, rng := d.2 }

/-- Embedding of solve_single. -/
def solve_single (cfg : QueensConfig) (g : Rng) : Option QueenRun × Rng :=
  solveSingleLoop cfg cfg.max_steps 0 (initQ cfg g)

/-- Embedding of the while loop of collect_solutions; the fuel bounds the
number of remaining iterations (max_restarts suffices, because every
iteration increments restarts — see the termination theorem).  The HashSet
insert of the source is modelled by the membership test on a Finset. -/
def collectLoop (target maxRestarts : Nat) (cfg : QueensConfig) :
    Nat → Finset (List Nat) → List QueenRun → Nat → Nat → Rng → CollectionResult × Rng
  | 0, _, runs, restarts, total, g => (⟨runs, restarts, total⟩, g)
  | fuel + 1, unique, runs, restarts, total, g =>
    if unique.card < target ∧ restarts < maxRestarts then
      let d := solve_single cfg g
      match d.1 with
      | some run =>
        if run.state ∈ unique then
          collectLoop target maxRestarts cfg fuel unique runs (restarts + 1)
            (total + run.steps) d.2
        else
          collectLoop target maxRestarts cfg fuel (insert run.state unique)
            (runs ++ [run]) (restarts + 1) (total + run.steps) d.2
      | none => collectLoop target maxRestarts cfg fuel unique runs (restarts + 1) total d.2
    else (⟨runs, restarts, total⟩, g)

/-- Embedding of collect_solutions. -/
def collect_solutions (target maxRestarts : Nat) (cfg : QueensConfig) (g : Rng) :
    CollectionResult × Rng :=
  collectLoop target maxRestarts cfg maxRestarts ∅ [] 0 0 g

/-! ## C1 -/

/-- C1: queen_conflict_count returns the number of unordered row pairs
(i, j) with i < j whose queens share a column or lie on a shared diagonal,
each conflicting pair counted exactly once; consequently it is zero exactly
when no two of the 8 rows share a column or a diagonal. -/
theorem queen_conflict_count_pairs_and_zero_iff (s : List Nat) :
    queen_conflict_count s =
      ((Finset.range 8 ×ˢ Finset.range 8).filter
        (fun p => p.1 < p.2 ∧ qconflict s p.1 p.2)).card ∧
    (queen_conflict_count s = 0 ↔
      ∀ i j, i < 8 → j < 8 → i ≠ j →
        s.getD i 0 ≠ s.getD j 0 ∧
        ((s.getD i 0 : Int) - (s.getD j 0 : Int)).natAbs ≠ ((i : Int) - (j : Int)).natAbs) := by
  have habs : ∀ a b : Int, (a - b).natAbs = (b - a).natAbs := by omega
  constructor
  · rw [Finset.card_filter, Finset.sum_product]
    rfl
  · unfold queen_conflict_count
    rw [Finset.sum_eq_zero_iff]
    constructor
    · intro h i j hi hj hij
      rcases Nat.lt_or_ge i j with hlt | hge
      · have hz := h i (Finset.mem_range.mpr hi)
        rw [Finset.sum_eq_zero_iff] at hz
        have hz2 := hz j (Finset.mem_range.mpr hj)
        by_contra hc
        rw [not_and_or, not_not, not_not] at hc
        have : i < j ∧ qconflict s i j := by
          refine ⟨hlt, ?_⟩
          unfold qconflict
          tauto
        rw [if_pos this] at hz2
        exact one_ne_zero hz2
      · have hlt : j < i := lt_of_le_of_ne hge (Ne.symm hij)
        have hz := h j (Finset.mem_range.mpr hj)
        rw [Finset.sum_eq_zero_iff] at hz
        have hz2 := hz i (Finset.mem_range.mpr hi)
        by_contra hc
        rw [not_and_or, not_not, not_not] at hc
        have : j < i ∧ qconflict s j i := by
          refine ⟨hlt, ?_⟩
          unfold qconflict
          rcases hc with hcol | hdiag
          · exact Or.inl hcol.symm
          · exact Or.inr (by rw [habs, hdiag, habs])
        rw [if_pos this] at hz2
        exact one_ne_zero hz2
    · intro h i hi
      rw [Finset.sum_eq_zero_iff]
      intro j hj
      rw [Finset.mem_range] at hi hj
      rw [if_neg]
      rintro ⟨hlt, hconf⟩
      have := h i j hi hj (Nat.ne_of_lt hlt)
      unfold qconflict at hconf
      tauto

/-! ## Sudoku: data model (src/sudoku.rs) -/

abbrev Board := Fin 9 → Fin 9 → Nat

abbrev Givens := Fin 9 → Fin 9 → Option Nat

/-- Occurrences of digit v in column c (the counts array entry for v). -/
def colCount (b : Board) (c : Fin 9) (v : Nat) : Nat :=
  (Finset.univ.filter fun r => b r c = v).card

/-- Embedding of column_conflicts: per column, each digit value 1..9
appearing k > 1 times contributes k - 1. -/
def column_conflicts (b : Board) : Nat :=
  ∑ c : Fin 9, ∑ v ∈ Finset.Icc 1 9, if 1 < colCount b c v then colCount b c v - 1 else 0

/-- Index 3*A + t of a box coordinate inside the 9-cell grid. -/
def boxIdx (A : Fin 3) (t : Fin 3) : Fin 9 :=
  ⟨3 * A.val + t.val, by have hA := A.isLt; have ht := t.isLt; omega⟩

/-- Occurrences of digit v in box (A, B). -/
def boxCount (b : Board) (A B : Fin 3) (v : Nat) : Nat :=
  (Finset.univ.filter fun p : Fin 3 × Fin 3 => b (boxIdx A p.1) (boxIdx B p.2) = v).card

/-- Embedding of box_conflicts. -/
def box_conflicts (b : Board) : Nat :=
  ∑ A : Fin 3, ∑ B : Fin 3, ∑ v ∈ Finset.Icc 1 9,
    if 1 < boxCount b A B v then boxCount b A B v - 1 else 0

/-- Embedding of SudokuState::energy. -/
def sudokuEnergy (b : Board) : Nat := column_conflicts b + box_conflicts b

/-- Embedding of row_free_positions for one row: the columns whose given is
None, in increasing column order. -/
def freeCols (gv : Givens) (r : Fin 9) : List (Fin 9) :=
  (List.finRange 9).filter fun c => (gv r c).isNone

/-- Digits 1..9 with each given digit of row r removed (first occurrence),
as in the digits.remove(pos) loop of random_initial_state. -/
def rowDigits (gv : Givens) (r : Fin 9) : List Nat :=
  (List.finRange 9).foldl
    (fun ds c => match gv r c with
      | some v => ds.erase v
      | none => ds)
    ((List.range 9).map (· + 1))

/-- Row r of the initial board: given cells keep their value, and the k-th
free cell (in column order) receives the k-th element of the shuffled
filler, as the filler.next() loop does. -/
def buildRow (gv : Givens) (r : Fin 9) (filler : List Nat) (c : Fin 9) : Nat :=
  (gv r c).getD (filler.getD ((freeCols gv r).indexOf c) 0)

/-- Embedding of random_initial_state.  The source shuffles one filler list
per row, in row order; row r therefore consumes the shuffle draw at stream
position idx + r, and nine draws are consumed in total. -/
def random_initial_state (gv : Givens) (g : Rng) : Board × Rng :=
  (fun r c => buildRow gv r (g.shuffleNat (g.idx + r.val) (rowDigits gv r)) c,
   { g with idx := g.idx + 9 })

structure SamplerConfig where
  max_steps : Nat
  start_temp : Rat
  cooling_rate : Rat

structure SolveStats where
  steps : Nat
  best_energy : Nat
  temperature : Rat

/-- Loop state of the Sudoku solve loop.  The accepted field is a ghost
record of the energies of accepted moves, present only to state the
best-tracking property; the source stores no such list. -/
structure SState where
  board : Board
  energy : Nat
  best : Board
  bestE : Nat
  temp : Rat
  steps : Nat
  accepted : List Nat
  rng : Rng

/-- Embedding of state.board[row].swap(col_a, col_b). -/
def swapCells (b : Board) (r a c : Fin 9) : Board :=
  fun r2 c2 =>
    if r2 = r then
      if c2 = a then b r c else if c2 = c then b r a else b r c2
    else b r2 c2

/-- A draw of a uniformly random index below n, as a Fin. -/
def Rng.randFin (g : Rng) (n : Nat) (h : 0 < n) : Fin n × Rng :=
  (⟨g.natStream g.idx % n, Nat.mod_lt _ h⟩, g.bump)

def defaultFin9 : Fin 9 := ⟨0, by norm_num⟩

/-- One iteration body of the Sudoku solve loop (executed when energy is
nonzero): draw a row; if it has fewer than two free cells the iteration only
consumes the step (the continue of the source skips the swap and also the
temperature update); otherwise swap two distinct free cells, accept or
reject by the Metropolis rule (swapping back on reject), track the best
state, and advance the cooling schedule. -/
def sudokuStep (gv : Givens) (cooling : Rat) (s : SState) : SState :=
  let d1 := s.rng.randFin 9 (by norm_num)
  let row := d1.1
  let positions := freeCols gv row
  if h2 : positions.length < 2 then
    { s with steps := s.steps + 1, rng := d1.2 }
  else
    let dA := d1.2.randRange positions.length
    let idxA := dA.1
    let dB := dA.2.randRangeNe positions.length idxA (by omega)
    let idxB := dB.1
    let colA := positions.getD idxA defaultFin9
    let colB := positions.getD idxB defaultFin9
    let b2 := swapCells s.board row colA colB
    let newE := sudokuEnergy b2
    let delta : Int := (newE : Int) - (s.energy : Int)
    let d3 := if delta ≤ 0 then (true, dB.2) else dB.2.metropolisDraw delta s.temp
    let temp2 := max (s.temp * cooling) (1 / 4)
    if d3.1 then
      { board := b2, energy := newE,
        best := if newE < s.bestE then b2 else s.best,
        bestE := if newE < s.bestE then newE else s.bestE,
        temp := temp2, steps := s.steps + 1,
        accepted := s.accepted ++ [newE], rng := d3.2 }
    else
      { board := swapCells b2 row colA colB, energy := s.energy,
        best := s.best, bestE := s.bestE, temp := temp2, steps := s.steps + 1,
        accepted := s.accepted, rng := d3.2 }

/-- Embedding of the bounded Sudoku solve loop; the break on energy zero
happens before the iteration body, and the fuel counts the remaining loop
iterations. -/
def solveLoop (gv : Givens) (cooling : Rat) : Nat → SState → SState
  | 0, s => s
  | fuel + 1, s =>
    if s.energy = 0 then s else solveLoop gv cooling fuel (sudokuStep gv cooling s)

/-- Initial loop state of solve. -/
def initS (gv : Givens) (cfg : SamplerConfig) (g : Rng) : SState :=
  let d := random_initial_state gv g
  { board := d.1, energy := sudokuEnergy d.1, best := d.1, bestE := sudokuEnergy d.1,
    temp := cfg.start_temp, steps := 0, accepted := [], rng := d.2 }

/-- The cooling-rate clamp of solve: cooling_rate.clamp(0.8, 0.9999). -/
def clampCooling (x : Rat) : Rat := min (max x (4 / 5)) (9999 / 10000)

/-- Embedding of solve; the final loop state carries the returned best board
and every statistics field the source returns. -/
def solve (gv : Givens) (cfg : SamplerConfig) (g : Rng) : SState :=
  solveLoop gv (clampCooling cfg.cooling_rate) cfg.max_steps (initS gv cfg g)

/-- The base pattern of generate_full_solution. -/
def pattern (row col : Nat) : Nat := (3 * (row % 3) + row / 3 + col) % 9

/-- Embedding of the band loop of generate_full_solution: for each band (in
shuffled order) push band*3 + offset for a fresh shuffle of the offsets
0,1,2.  Iteration A consumes the shuffle draw at stream position idx + A. -/
def bandExpand (bl : List Nat) (g : Rng) : List Nat × Rng :=
  ((List.range bl.length).flatMap
      (fun A => (g.shuffleNat (g.idx + A) [0, 1, 2]).map (fun o => bl.getD A 0 * 3 + o)),
   { g with idx := g.idx + bl.length })

/-- Embedding of generate_full_solution: shuffled row bands with per-band
shuffled offsets, likewise for columns, a shuffled digit list 1..9, and the
pattern-indexed board. -/
def generate_full_solution (g : Rng) : Board × Rng :=
  let dRB := g.shuffleNatDraw [0, 1, 2]
  let dR := bandExpand dRB.1 dRB.2
  let dCB := dR.2.shuffleNatDraw [0, 1, 2]
  let dC := bandExpand dCB.1 dCB.2
  let dN := dC.2.shuffleNatDraw ((List.range 9).map (· + 1))
  (fun i j => dN.1.getD (pattern (dR.1.getD i.val 0) (dC.1.getD j.val 0)) 0, dN.2)

/-- Embedding of SudokuPuzzle::with_random_holes. -/
def with_random_holes (holes : Nat) (g : Rng) : Givens × Rng :=
  let dS := generate_full_solution g
  let coords : List (Nat × Nat) :=
    (List.range 9).flatMap fun r => (List.range 9).map fun c => (r, c)
  let dC := dS.2.shufflePairDraw coords
  let removed := min holes 81
  (fun r c => if (r.val, c.val) ∈ dC.1.take removed then none else some (dS.1 r c), dC.2)

/-- Embedding of count_givens. -/
def count_givens (gv : Givens) : Nat :=
  ∑ r : Fin 9, ∑ c : Fin 9, if (gv r c).isSome then 1 else 0

/-! ## C2: energy is zero exactly on column-valid and box-valid boards -/

lemma sum_colCount (b : Board) (c : Fin 9) (h : ∀ r, b r c ∈ Finset.Icc 1 9) :
    ∑ v ∈ Finset.Icc 1 9, colCount b c v = 9 := by
  have h9 : (Finset.univ : Finset (Fin 9)).card =
      ∑ v ∈ Finset.Icc 1 9, (Finset.univ.filter fun r => b r c = v).card :=
    Finset.card_eq_sum_card_fiberwise (fun r _ => h r)
  simp only [Finset.card_univ, Fintype.card_fin] at h9
  exact h9.symm

lemma sum_boxCount (b : Board) (A B : Fin 3) (h : ∀ r c, b r c ∈ Finset.Icc 1 9) :
    ∑ v ∈ Finset.Icc 1 9, boxCount b A B v = 9 := by
  have h9 : (Finset.univ : Finset (Fin 3 × Fin 3)).card =
      ∑ v ∈ Finset.Icc 1 9,
        (Finset.univ.filter fun p : Fin 3 × Fin 3 => b (boxIdx A p.1) (boxIdx B p.2) = v).card :=
    Finset.card_eq_sum_card_fiberwise (fun p _ => h _ _)
  simp only [Finset.card_univ, Fintype.card_prod, Fintype.card_fin] at h9
  exact h9.symm

lemma all_eq_one_of_le_one {t : Finset Nat} {f : Nat → Nat}
    (h1 : ∀ v ∈ t, f v ≤ 1) (h2 : ∑ v ∈ t, f v = t.card) : ∀ v ∈ t, f v = 1 := by
  by_contra hc
  push_neg at hc
  obtain ⟨v0, hv0, hne⟩ := hc
  have hlt : ∑ v ∈ t, f v < ∑ _v ∈ t, 1 :=
    Finset.sum_lt_sum h1 ⟨v0, hv0, lt_of_le_of_ne (h1 v0 hv0) hne⟩
  rw [Finset.sum_const, smul_eq_mul, mul_one] at hlt
  omega

lemma column_conflicts_zero_iff (b : Board) :
    column_conflicts b = 0 ↔ ∀ c, ∀ v ∈ Finset.Icc 1 9, colCount b c v ≤ 1 := by
  unfold column_conflicts
  constructor
  · intro h c v hv
    have h1 := Finset.sum_eq_zero_iff.mp h c (Finset.mem_univ c)
    have h2 := Finset.sum_eq_zero_iff.mp h1 v hv
    by_contra hgt
    push_neg at hgt
    rw [if_pos hgt] at h2
    omega
  · intro h
    apply Finset.sum_eq_zero
    intro c _
    apply Finset.sum_eq_zero
    intro v hv
    rw [if_neg (not_lt.mpr (h c v hv))]

lemma box_conflicts_zero_iff (b : Board) :
    box_conflicts b = 0 ↔ ∀ A B, ∀ v ∈ Finset.Icc 1 9, boxCount b A B v ≤ 1 := by
  unfold box_conflicts
  constructor
  · intro h A B v hv
    have h1 := Finset.sum_eq_zero_iff.mp h A (Finset.mem_univ A)
    have h2 := Finset.sum_eq_zero_iff.mp h1 B (Finset.mem_univ B)
    have h3 := Finset.sum_eq_zero_iff.mp h2 v hv
    by_contra hgt
    push_neg at hgt
    rw [if_pos hgt] at h3
    omega
  · intro h
    apply Finset.sum_eq_zero
    intro A _
    apply Finset.sum_eq_zero
    intro B _
    apply Finset.sum_eq_zero
    intro v hv
    rw [if_neg (not_lt.mpr (h A B v hv))]

/-- C2: on a board whose cells all hold digits 1..9, the energy (sum over
columns and boxes of the k - 1 contributions of digits appearing k > 1
times, which is the definition of column_conflicts plus box_conflicts) is
zero exactly when every column and every box contains each digit 1..9
exactly once. -/
theorem sudoku_energy_zero_iff (b : Board) (h : ∀ r c, b r c ∈ Finset.Icc 1 9) :
    sudokuEnergy b = 0 ↔
      ((∀ c, ∀ v ∈ Finset.Icc 1 9, colCount b c v = 1) ∧
       (∀ A B, ∀ v ∈ Finset.Icc 1 9, boxCount b A B v = 1)) := by
  unfold sudokuEnergy
  rw [Nat.add_eq_zero, column_conflicts_zero_iff, box_conflicts_zero_iff]
  constructor
  · rintro ⟨hcol, hbox⟩
    constructor
    · intro c
      refine all_eq_one_of_le_one (hcol c) ?_
      rw [sum_colCount b c (fun r => h r c)]
      simp [Nat.card_Icc]
    · intro A B
      refine all_eq_one_of_le_one (hbox A B) ?_
      rw [sum_boxCount b A B h]
      simp [Nat.card_Icc]
  · rintro ⟨hcol, hbox⟩
    exact ⟨fun c v hv => le_of_eq (hcol c v hv), fun A B v hv => le_of_eq (hbox A B v hv)⟩

/-- Witness for C2 at a concrete valid board. -/
theorem sudoku_energy_zero_iff_witness :
    (∀ r c : Fin 9, (pattern r.val c.val + 1) ∈ Finset.Icc 1 9) ∧
    (sudokuEnergy (fun r c => pattern r.val c.val + 1) = 0 ↔
      ((∀ c, ∀ v ∈ Finset.Icc 1 9, colCount (fun r c => pattern r.val c.val + 1) c v = 1) ∧
       (∀ A B, ∀ v ∈ Finset.Icc 1 9,
          boxCount (fun r c => pattern r.val c.val + 1) A B v = 1))) :=
  ⟨by decide, sudoku_energy_zero_iff _ (by decide)⟩

/-! ## A concrete fair random source, used to instantiate theorems -/

/-- A concrete fair random source: the stream is the identity and the
shuffles return their input unchanged. -/
def idRng : Rng where
  natStream := id
  boolStream := fun _ _ _ => true
  shuffleNat := fun _ l => l
  shufflePair := fun _ l => l
  idx := 0
  fair := by
    intro start n c h2
    by_cases he : start % n = c
    · refine ⟨1, fun h1 => ?_⟩
      have h1' : (start + 1) % n = c := h1
      have hmod : start % n = (start + 1) % n := by
        rw [h1', he]
      have hdvd : n ∣ 1 := by
        have := (Nat.modEq_iff_dvd' (Nat.le_succ start)).mp hmod
        simpa using this
      have := Nat.le_of_dvd Nat.one_pos hdvd
      omega
    · exact ⟨0, by simpa using he⟩
  shuffleNat_perm := fun _ l => List.Perm.refl l
  shufflePair_perm := fun _ l => List.Perm.refl l

/-! ## C4: cooling-schedule advance -/

/-- C4 (amended): every Queens iteration that does not terminate on energy
zero advances the cooling schedule exactly once, setting temperature to
max(temperature * cooling_rate, 0.25); a Sudoku iteration does the same
(with the cooling rate the loop was given) when the chosen row has at least
two free cells, but an iteration whose chosen row has fewer than two free
cells consumes a step and leaves the temperature unchanged. -/
theorem cooling_schedule_amended :
    (∀ (cfg : QueensConfig) (s : QState),
        (queensStep cfg s).temp = max (s.temp * cfg.cooling_rate) (1 / 4)) ∧
    (∀ (gv : Givens) (cooling : Rat) (s : SState),
        2 ≤ (freeCols gv (s.rng.randFin 9 (by norm_num)).1).length →
        (sudokuStep gv cooling s).temp = max (s.temp * cooling) (1 / 4)) ∧
    (∀ (gv : Givens) (cooling : Rat) (s : SState),
        (freeCols gv (s.rng.randFin 9 (by norm_num)).1).length < 2 →
        (sudokuStep gv cooling s).temp = s.temp ∧
        (sudokuStep gv cooling s).steps = s.steps + 1) := by
  refine ⟨?_, ?_, ?_⟩
  · intro cfg s
    unfold queensStep
    dsimp only
    split
    · rfl
    · split <;> rfl
  · intro gv cooling s h2
    unfold sudokuStep
    rw [dif_neg (not_lt.mpr h2)]
    dsimp only
    split
    · rfl
    · split <;> rfl
  · intro gv cooling s h2
    unfold sudokuStep
    rw [dif_pos h2]
    exact ⟨rfl, rfl⟩

/-- C4 as stated is false on the code: a concrete Sudoku run whose single
iteration draws a row with no free cells consumes the step but leaves the
temperature unchanged instead of setting it to
max(temperature * cooling_rate, 0.25). -/
theorem sudoku_skip_iteration_counterexample :
    (solve (fun r c => if r.val = 0 then some (c.val + 1) else none)
        ⟨1, 2, 9 / 10⟩ idRng).temp = 2 ∧
    (solve (fun r c => if r.val = 0 then some (c.val + 1) else none)
        ⟨1, 2, 9 / 10⟩ idRng).steps = 1 ∧
    max ((2 : Rat) * clampCooling (9 / 10)) (1 / 4) ≠ 2 := by
  refine ⟨by decide, by decide, ?_⟩
  norm_num [clampCooling]

/-- Witness for the amended C4 at concrete inputs: one Sudoku iteration
whose drawn row has nine free cells cools; one whose drawn row has no free
cell keeps the temperature. -/
theorem cooling_schedule_amended_witness :
    (2 ≤ (freeCols (fun _ _ => none) ((idRng.randFin 9 (by norm_num)).1)).length ∧
      (sudokuStep (fun _ _ => none) (1 / 2)
          ⟨fun _ _ => 0, 5, fun _ _ => 0, 5, 2, 0, [], idRng⟩).temp =
        max ((2 : Rat) * (1 / 2)) (1 / 4)) ∧
    ((freeCols (fun r c => if r.val = 0 then some (c.val + 1) else none)
        ((idRng.randFin 9 (by norm_num)).1)).length < 2 ∧
      (sudokuStep (fun r c => if r.val = 0 then some (c.val + 1) else none) (1 / 2)
          ⟨fun _ _ => 0, 5, fun _ _ => 0, 5, 2, 0, [], idRng⟩).temp = 2 ∧
      (sudokuStep (fun r c => if r.val = 0 then some (c.val + 1) else none) (1 / 2)
          ⟨fun _ _ => 0, 5, fun _ _ => 0, 5, 2, 0, [], idRng⟩).steps = 0 + 1) :=
  ⟨⟨by decide, cooling_schedule_amended.2.1 _ _ _ (by decide)⟩,
   ⟨by decide, (cooling_schedule_amended.2.2 _ _ _ (by decide)).1,
     (cooling_schedule_amended.2.2 _ _ _ (by decide)).2⟩⟩

/-! ## C7 helpers: termination facts -/

lemma randRangeNe_spec (g : Rng) (n c : Nat) (h : 2 ≤ n) :
    (g.randRangeNe n c h).1 ≠ c ∧
    ∃ k, (g.randRangeNe n c h).1 = g.natStream (g.idx + k) % n ∧
      (∀ j < k, g.natStream (g.idx + j) % n = c) ∧
      (g.randRangeNe n c h).2.idx = g.idx + k + 1 := by
  unfold Rng.randRangeNe
  dsimp only
  refine ⟨Nat.find_spec (g.fair g.idx n c h),
    Nat.find (g.fair g.idx n c h), rfl, ?_, rfl⟩
  intro j hj
  have := Nat.find_min (g.fair g.idx n c h) hj
  simpa using this

lemma solveSingleLoop_steps_lt (cfg : QueensConfig) :
    ∀ fuel step s run, (solveSingleLoop cfg fuel step s).1 = some run →
      run.steps < step + fuel := by
  intro fuel
  induction fuel with
  | zero =>
    intro step s run h
    exact absurd h (by simp [solveSingleLoop])
  | succ fuel ih =>
    intro step s run h
    simp only [solveSingleLoop] at h
    split at h
    · dsimp only at h
      have h2 := Option.some.inj h
      rw [← h2]
      show step < step + (fuel + 1)
      omega
    · have := ih (step + 1) (queensStep cfg s) run h
      omega

lemma sudokuStep_steps (gv : Givens) (cooling : Rat) (s : SState) :
    (sudokuStep gv cooling s).steps = s.steps + 1 := by
  unfold sudokuStep
  dsimp only
  split
  · rfl
  · split
    · rfl
    · split <;> rfl

lemma solveLoop_steps_le (gv : Givens) (cooling : Rat) :
    ∀ fuel s, (solveLoop gv cooling fuel s).steps ≤ s.steps + fuel := by
  intro fuel
  induction fuel with
  | zero =>
    intro s
    simp [solveLoop]
  | succ fuel ih =>
    intro s
    simp only [solveLoop]
    split
    · omega
    · have h1 := ih (sudokuStep gv cooling s)
      have h2 := sudokuStep_steps gv cooling s
      omega

lemma collectLoop_fuel_irrel (target mr : Nat) (cfg : QueensConfig) :
    ∀ f1 : Nat, ∀ f2 u runs r ts g, mr - r ≤ f1 → mr - r ≤ f2 →
      collectLoop target mr cfg f1 u runs r ts g =
        collectLoop target mr cfg f2 u runs r ts g := by
  intro f1
  induction f1 with
  | zero =>
    intro f2 u runs r ts g h1 h2
    have hr : ¬ r < mr := by omega
    cases f2 with
    | zero => rfl
    | succ f2 =>
      simp only [collectLoop]
      rw [if_neg]
      rintro ⟨_, hlt⟩
      exact hr hlt
  | succ f1 ih =>
    intro f2 u runs r ts g h1 h2
    by_cases hcond : u.card < target ∧ r < mr
    · have hr : r < mr := hcond.2
      cases f2 with
      | zero => omega
      | succ f2 =>
        simp only [collectLoop]
        rw [if_pos hcond, if_pos hcond]
        cases hres : (solve_single cfg g).1 with
        | none => exact ih f2 u runs (r + 1) ts _ (by omega) (by omega)
        | some run =>
          dsimp only
          by_cases hmem : run.state ∈ u
          · rw [if_pos hmem, if_pos hmem]
            exact ih f2 u runs (r + 1) (ts + run.steps) _ (by omega) (by omega)
          · rw [if_neg hmem, if_neg hmem]
            exact ih f2 _ _ (r + 1) (ts + run.steps) _ (by omega) (by omega)
    · cases f2 with
      | zero =>
        simp only [collectLoop]
        rw [if_neg hcond]
      | succ f2 =>
        simp only [collectLoop]
        rw [if_neg hcond, if_neg hcond]

lemma collectLoop_restarts_le (target mr : Nat) (cfg : QueensConfig) :
    ∀ fuel u runs r ts g, r ≤ mr →
      (collectLoop target mr cfg fuel u runs r ts g).1.restarts ≤ mr := by
  intro fuel
  induction fuel with
  | zero =>
    intro u runs r ts g hr
    exact hr
  | succ fuel ih =>
    intro u runs r ts g hr
    simp only [collectLoop]
    by_cases hcond : u.card < target ∧ r < mr
    · rw [if_pos hcond]
      cases hres : (solve_single cfg g).1 with
      | none => exact ih _ _ _ _ _ (by omega)
      | some run =>
        dsimp only
        by_cases hmem : run.state ∈ u
        · rw [if_pos hmem]
          exact ih _ _ _ _ _ (by omega)
        · rw [if_neg hmem]
          exact ih _ _ _ _ _ (by omega)
    · rw [if_neg hcond]
      exact hr

/-! ## C7: termination -/

/-- C7: every annealing attempt terminates within its step budget — a
successful Queens attempt consumes fewer than max_steps iterations, and the
Sudoku loop consumes at most max_steps steps; collect_solutions terminates
within max_restarts attempts: its restart counter never exceeds
max_restarts, and giving the while loop any fuel of at least max_restarts
iterations does not change its result, because each iteration increments
restarts; and each inner resample-until-different loop terminates,
returning the first stream draw that differs from the excluded value. -/
theorem annealing_termination :
    (∀ (cfg : QueensConfig) (g : Rng) run,
        (solve_single cfg g).1 = some run → run.steps < cfg.max_steps) ∧
    (∀ (gv : Givens) (cfg : SamplerConfig) (g : Rng),
        (solve gv cfg g).steps ≤ cfg.max_steps) ∧
    (∀ (target mr : Nat) (cfg : QueensConfig) (g : Rng),
        (collect_solutions target mr cfg g).1.restarts ≤ mr) ∧
    (∀ (target mr : Nat) (cfg : QueensConfig) (g : Rng) fuel, mr ≤ fuel →
        collectLoop target mr cfg fuel ∅ [] 0 0 g = collect_solutions target mr cfg g) ∧
    (∀ (g : Rng) (n c : Nat) (h : 2 ≤ n),
        (g.randRangeNe n c h).1 ≠ c ∧
        ∃ k, (g.randRangeNe n c h).1 = g.natStream (g.idx + k) % n ∧
          (∀ j < k, g.natStream (g.idx + j) % n = c) ∧
          (g.randRangeNe n c h).2.idx = g.idx + k + 1) := by
  refine ⟨?_, ?_, ?_, ?_, randRangeNe_spec⟩
  · intro cfg g run h
    have := solveSingleLoop_steps_lt cfg cfg.max_steps 0 (initQ cfg g) run h
    omega
  · intro gv cfg g
    have h1 := solveLoop_steps_le gv (clampCooling cfg.cooling_rate) cfg.max_steps
      (initS gv cfg g)
    have h0 : (initS gv cfg g).steps = 0 := rfl
    unfold solve
    omega
  · intro target mr cfg g
    exact collectLoop_restarts_le target mr cfg mr ∅ [] 0 0 g (Nat.zero_le mr)
  · intro target mr cfg g fuel hf
    exact collectLoop_fuel_irrel target mr cfg fuel mr ∅ [] 0 0 g (by omega) (by omega)

/-- A random source whose shuffle of the column list 0..7 yields a concrete
solved queens permutation; used to instantiate theorems about successful
attempts. -/
def solRng : Rng :=
  { idRng with
    shuffleNat := fun _ l => if l = List.range 8 then [0, 4, 7, 5, 2, 6, 1, 3] else l,
    shuffleNat_perm := by
      intro i l
      dsimp only
      split
      · rename_i hl
        rw [hl]
        decide
      · exact List.Perm.refl l }

/-- Witness for C7 at concrete inputs. -/
theorem annealing_termination_witness :
    ((solve_single ⟨1, 1, 1⟩ solRng).1 = some ⟨[0, 4, 7, 5, 2, 6, 1, 3], 0⟩ ∧
      (0 : Nat) < 1) ∧
    (solve (fun _ _ => none) ⟨0, 1, 1⟩ idRng).steps ≤ 0 ∧
    (collect_solutions 0 3 ⟨1, 1, 1⟩ idRng).1.restarts ≤ 3 ∧
    ((3 : Nat) ≤ 5 ∧
      collectLoop 0 3 ⟨1, 1, 1⟩ 5 ∅ [] 0 0 idRng = collect_solutions 0 3 ⟨1, 1, 1⟩ idRng) ∧
    ((2 : Nat) ≤ 8 ∧ (idRng.randRangeNe 8 0 (by norm_num)).1 ≠ 0) :=
  ⟨⟨by decide, annealing_termination.1 ⟨1, 1, 1⟩ solRng ⟨[0, 4, 7, 5, 2, 6, 1, 3], 0⟩ (by decide)⟩,
   annealing_termination.2.1 _ _ _,
   annealing_termination.2.2.1 _ _ _ _,
   ⟨by norm_num, annealing_termination.2.2.2.1 0 3 ⟨1, 1, 1⟩ idRng 5 (by norm_num)⟩,
   ⟨by norm_num, (annealing_termination.2.2.2.2 idRng 8 0 (by norm_num)).1⟩⟩

/-! ## C5: deduplication -/

lemma collectLoop_nodup (target mr : Nat) (cfg : QueensConfig) :
    ∀ fuel u runs r ts g,
      (runs.map QueenRun.state).Nodup → (∀ q ∈ runs, q.state ∈ u) →
      ((collectLoop target mr cfg fuel u runs r ts g).1.runs.map QueenRun.state).Nodup := by
  intro fuel
  induction fuel with
  | zero =>
    intro u runs r ts g hnd _
    exact hnd
  | succ fuel ih =>
    intro u runs r ts g hnd hsub
    simp only [collectLoop]
    by_cases hcond : u.card < target ∧ r < mr
    · rw [if_pos hcond]
      cases hres : (solve_single cfg g).1 with
      | none => exact ih _ _ _ _ _ hnd hsub
      | some run =>
        dsimp only
        by_cases hmem : run.state ∈ u
        · rw [if_pos hmem]
          exact ih _ _ _ _ _ hnd hsub
        · rw [if_neg hmem]
          apply ih
          · rw [List.map_append, List.nodup_append]
            refine ⟨hnd, by simp, ?_⟩
            intro x hx hx2
            simp only [List.map_cons, List.map_nil, List.mem_singleton] at hx2
            subst hx2
            obtain ⟨q, hq, hqe⟩ := List.mem_map.mp hx
            exact hmem (hqe ▸ hsub q hq)
          · intro q hq
            rcases List.mem_append.mp hq with hin | hin
            · exact Finset.mem_insert_of_mem (hsub q hin)
            · simp only [List.mem_singleton] at hin
              subst hin
              exact Finset.mem_insert_self _ _
    · rw [if_neg hcond]
      exact hnd

/-- C5: the runs list collect_solutions returns holds pairwise distinct
column-state arrays even when the same solution is rediscovered by several
restarts; one loop iteration whose attempt rediscovers an already-collected
state leaves the runs list unchanged while still adding the run's step
count to total_steps and still counting the attempt in restarts, and an
iteration that finds a new state appends it at the end of the runs list, so
entries appear in first-discovery order. -/
theorem collect_solutions_dedup :
    (∀ (target mr : Nat) (cfg : QueensConfig) (g : Rng),
        ((collect_solutions target mr cfg g).1.runs.map QueenRun.state).Nodup) ∧
    (∀ (target mr : Nat) (cfg : QueensConfig) fuel u runs r ts (g : Rng) run,
        u.card < target → r < mr → (solve_single cfg g).1 = some run →
        (run.state ∈ u →
          collectLoop target mr cfg (fuel + 1) u runs r ts g =
            collectLoop target mr cfg fuel u runs (r + 1) (ts + run.steps)
              (solve_single cfg g).2) ∧
        (run.state ∉ u →
          collectLoop target mr cfg (fuel + 1) u runs r ts g =
            collectLoop target mr cfg fuel (insert run.state u) (runs ++ [run]) (r + 1)
              (ts + run.steps) (solve_single cfg g).2)) := by
  constructor
  · intro target mr cfg g
    exact collectLoop_nodup target mr cfg mr ∅ [] 0 0 g (by simp) (by simp)
  · intro target mr cfg fuel u runs r ts g run h1 h2 hres
    constructor
    · intro hmem
      simp only [collectLoop]
      rw [if_pos ⟨h1, h2⟩]
      rw [hres]
      dsimp only
      rw [if_pos hmem]
    · intro hmem
      simp only [collectLoop]
      rw [if_pos ⟨h1, h2⟩]
      rw [hres]
      dsimp only
      rw [if_neg hmem]

/-- Witness for C5: a loop iteration that rediscovers the already-collected
solution state counts the restart and the steps but appends nothing. -/
theorem collect_solutions_dedup_witness :
    (({[0, 4, 7, 5, 2, 6, 1, 3]} : Finset (List Nat)).card < 2 ∧ (0 : Nat) < 1 ∧
      (solve_single ⟨1, 1, 1⟩ solRng).1 = some ⟨[0, 4, 7, 5, 2, 6, 1, 3], 0⟩ ∧
      [0, 4, 7, 5, 2, 6, 1, 3] ∈ ({[0, 4, 7, 5, 2, 6, 1, 3]} : Finset (List Nat))) ∧
    collectLoop 2 1 ⟨1, 1, 1⟩ 1 {[0, 4, 7, 5, 2, 6, 1, 3]} [] 0 0 solRng =
      collectLoop 2 1 ⟨1, 1, 1⟩ 0 {[0, 4, 7, 5, 2, 6, 1, 3]} [] 1 (0 + 0)
        (solve_single ⟨1, 1, 1⟩ solRng).2 :=
  ⟨⟨by decide, by decide, by decide, by decide⟩,
   (collect_solutions_dedup.2 2 1 ⟨1, 1, 1⟩ 0 {[0, 4, 7, 5, 2, 6, 1, 3]} [] 0 0 solRng
      ⟨[0, 4, 7, 5, 2, 6, 1, 3], 0⟩ (by decide) (by decide) (by decide)).1 (by decide)⟩

/-! ## C6: success and failure of solve_single -/

lemma set_getD_self (l : List Nat) (i : Nat) (h : i < l.length) :
    l.set i (l.getD i 0) = l := by
  apply List.ext_getElem
  · simp
  · intro n h1 h2
    rw [List.getElem_set]
    split
    · rename_i hi
      subst hi
      exact List.getD_eq_getElem l 0 h
    · rfl

lemma queensStep_inv (cfg : QueensConfig) (s : QState)
    (h : s.energy = queen_conflict_count s.cols ∧ s.cols.length = 8) :
    (queensStep cfg s).energy = queen_conflict_count (queensStep cfg s).cols ∧
    (queensStep cfg s).cols.length = 8 := by
  unfold queensStep
  dsimp only
  split
  · exact ⟨rfl, by simp [h.2]⟩
  · split
    · exact ⟨rfl, by simp [h.2]⟩
    · constructor
      · have hrow : (s.rng.randRange 8).1 < s.cols.length := by
          rw [h.2]
          exact Nat.mod_lt _ (by norm_num)
        rw [List.set_set, set_getD_self s.cols _ hrow]
        exact h.1
      · simp [h.2]

lemma queensIter_inv (cfg : QueensConfig) (s : QState)
    (h : s.energy = queen_conflict_count s.cols ∧ s.cols.length = 8) (i : Nat) :
    ((queensStep cfg)^[i] s).energy = queen_conflict_count ((queensStep cfg)^[i] s).cols ∧
    ((queensStep cfg)^[i] s).cols.length = 8 := by
  induction i with
  | zero => exact h
  | succ i ih =>
    rw [Function.iterate_succ_apply']
    exact queensStep_inv cfg _ ih

lemma solveSingleLoop_characterization (cfg : QueensConfig) :
    ∀ fuel step s,
      ((solveSingleLoop cfg fuel step s).1 = none ↔
        ∀ i < fuel, ((queensStep cfg)^[i] s).energy ≠ 0) ∧
      (∀ run, (solveSingleLoop cfg fuel step s).1 = some run →
        ∃ i < fuel, ((queensStep cfg)^[i] s).energy = 0 ∧
          (∀ j < i, ((queensStep cfg)^[j] s).energy ≠ 0) ∧
          run.steps = step + i ∧ run.state = ((queensStep cfg)^[i] s).cols) := by
  intro fuel
  induction fuel with
  | zero =>
    intro step s
    constructor
    · constructor
      · intro _ i hi
        exact absurd hi (Nat.not_lt_zero i)
      · intro _
        rfl
    · intro run h
      exact absurd h (by simp [solveSingleLoop])
  | succ fuel ih =>
    intro step s
    by_cases he : s.energy = 0
    · constructor
      · constructor
        · intro h
          simp only [solveSingleLoop, if_pos he] at h
          exact Option.noConfusion h
        · intro h
          exact absurd (show ((queensStep cfg)^[0] s).energy = 0 by simpa using he)
            (h 0 (by omega))
      · intro run hrun
        simp only [solveSingleLoop, if_pos he] at hrun
        have hrun2 := Option.some.inj hrun
        refine ⟨0, by omega, by simpa using he, ?_, ?_, ?_⟩
        · intro j hj
          exact absurd hj (Nat.not_lt_zero j)
        · rw [← hrun2]
          show step = step + 0
          omega
        · rw [← hrun2]
          rfl
    · have hloop : solveSingleLoop cfg (fuel + 1) step s =
          solveSingleLoop cfg fuel (step + 1) (queensStep cfg s) := by
        simp only [solveSingleLoop, if_neg he]
      obtain ⟨ihn, ihs⟩ := ih (step + 1) (queensStep cfg s)
      constructor
      · rw [hloop, ihn]
        constructor
        · intro h i hi
          cases i with
          | zero => simpa using he
          | succ j =>
            rw [Function.iterate_succ_apply]
            exact h j (by omega)
        · intro h i hi
          have := h (i + 1) (by omega)
          rwa [Function.iterate_succ_apply] at this
      · intro run hrun
        rw [hloop] at hrun
        obtain ⟨i, hi, h0, hprev, hsteps, hstate⟩ := ihs run hrun
        refine ⟨i + 1, by omega, ?_, ?_, by omega, ?_⟩
        · rwa [Function.iterate_succ_apply]
        · intro j hj
          cases j with
          | zero => simpa using he
          | succ j2 =>
            rw [Function.iterate_succ_apply]
            exact hprev j2 (by omega)
        · rwa [Function.iterate_succ_apply]

/-- C6: solve_single returns Some exactly when some zero-energy check (one
runs before each of the max_steps iteration bodies) observes energy zero;
the returned run's state then has conflict count zero, its steps field
equals the number of iterations consumed before the first such check, and
its state is the one reached at that point; solve_single returns None
exactly when all max_steps iterations complete with every check observing
nonzero energy. -/
theorem solve_single_some_iff (cfg : QueensConfig) (g : Rng) :
    ((solve_single cfg g).1 = none ↔
      ∀ i < cfg.max_steps, ((queensStep cfg)^[i] (initQ cfg g)).energy ≠ 0) ∧
    (∀ run, (solve_single cfg g).1 = some run →
      queen_conflict_count run.state = 0 ∧
      ∃ i < cfg.max_steps, ((queensStep cfg)^[i] (initQ cfg g)).energy = 0 ∧
        (∀ j < i, ((queensStep cfg)^[j] (initQ cfg g)).energy ≠ 0) ∧
        run.steps = i ∧ run.state = ((queensStep cfg)^[i] (initQ cfg g)).cols) := by
  obtain ⟨hn, hs⟩ := solveSingleLoop_characterization cfg cfg.max_steps 0 (initQ cfg g)
  constructor
  · exact hn
  · intro run hrun
    obtain ⟨i, hi, h0, hprev, hsteps, hstate⟩ := hs run hrun
    have hinv : (initQ cfg g).energy = queen_conflict_count (initQ cfg g).cols ∧
        (initQ cfg g).cols.length = 8 := by
      constructor
      · rfl
      · have := g.shuffleNat_perm g.idx (List.range 8)
        simpa [initQ, random_queen_state, Rng.shuffleNatDraw] using this.length_eq
    have hiter := queensIter_inv cfg (initQ cfg g) hinv i
    refine ⟨?_, i, hi, h0, hprev, by omega, hstate⟩
    rw [hstate, ← hiter.1]
    exact h0

/-- Witness for C6: a concrete successful attempt. -/
theorem solve_single_some_iff_witness :
    (solve_single ⟨1, 1, 1⟩ solRng).1 = some ⟨[0, 4, 7, 5, 2, 6, 1, 3], 0⟩ ∧
    (queen_conflict_count (QueenRun.state ⟨[0, 4, 7, 5, 2, 6, 1, 3], 0⟩) = 0 ∧
      ∃ i < QueensConfig.max_steps ⟨1, 1, 1⟩,
        ((queensStep ⟨1, 1, 1⟩)^[i] (initQ ⟨1, 1, 1⟩ solRng)).energy = 0 ∧
        (∀ j < i, ((queensStep ⟨1, 1, 1⟩)^[j] (initQ ⟨1, 1, 1⟩ solRng)).energy ≠ 0) ∧
        QueenRun.steps ⟨[0, 4, 7, 5, 2, 6, 1, 3], 0⟩ = i ∧
        QueenRun.state ⟨[0, 4, 7, 5, 2, 6, 1, 3], 0⟩ =
          ((queensStep ⟨1, 1, 1⟩)^[i] (initQ ⟨1, 1, 1⟩ solRng)).cols) :=
  ⟨by decide,
   (solve_single_some_iff ⟨1, 1, 1⟩ solRng).2 ⟨[0, 4, 7, 5, 2, 6, 1, 3], 0⟩ (by decide)⟩

/-! ## C9: determinism -/

lemma Rng_eq_of_data (g1 g2 : Rng) (h1 : g1.natStream = g2.natStream)
    (h2 : g1.boolStream = g2.boolStream) (h3 : g1.shuffleNat = g2.shuffleNat)
    (h4 : g1.shufflePair = g2.shufflePair) (h5 : g1.idx = g2.idx) : g1 = g2 := by
  obtain ⟨n1, b1, s1, p1, i1, f1, sp1, pp1⟩ := g1
  obtain ⟨n2, b2, s2, p2, i2, f2, sp2, pp2⟩ := g2
  dsimp only at h1 h2 h3 h4 h5
  subst h1
  subst h2
  subst h3
  subst h4
  subst h5
  rfl

/-- C9: for a fixed configuration, the entire run is a deterministic
function of the random-source state: two sources with identical stream,
Metropolis oracle, shuffle functions and stream position produce identical
results for collect_solutions, solve_single and solve, and identical
intermediate loop states at every fuel and loop counter. -/
theorem run_determinism (g1 g2 : Rng)
    (h1 : g1.natStream = g2.natStream) (h2 : g1.boolStream = g2.boolStream)
    (h3 : g1.shuffleNat = g2.shuffleNat) (h4 : g1.shufflePair = g2.shufflePair)
    (h5 : g1.idx = g2.idx) :
    (∀ target mr cfg,
        collect_solutions target mr cfg g1 = collect_solutions target mr cfg g2) ∧
    (∀ cfg, solve_single cfg g1 = solve_single cfg g2) ∧
    (∀ cfg fuel step cols energy temp,
        solveSingleLoop cfg fuel step ⟨cols, energy, temp, g1⟩ =
          solveSingleLoop cfg fuel step ⟨cols, energy, temp, g2⟩) ∧
    (∀ gv cfg, solve gv cfg g1 = solve gv cfg g2) ∧
    (∀ gv cooling fuel board energy best bestE temp steps accepted,
        solveLoop gv cooling fuel ⟨board, energy, best, bestE, temp, steps, accepted, g1⟩ =
          solveLoop gv cooling fuel ⟨board, energy, best, bestE, temp, steps, accepted, g2⟩) := by
  have he : g1 = g2 := Rng_eq_of_data g1 g2 h1 h2 h3 h4 h5
  subst he
  exact ⟨fun _ _ _ => rfl, fun _ => rfl, fun _ _ _ _ _ _ => rfl, fun _ _ => rfl,
    fun _ _ _ _ _ _ _ _ _ _ => rfl⟩

/-- Witness for C9 at a concrete source. -/
theorem run_determinism_witness :
    (idRng.natStream = idRng.natStream ∧ idRng.boolStream = idRng.boolStream ∧
      idRng.shuffleNat = idRng.shuffleNat ∧ idRng.shufflePair = idRng.shufflePair ∧
      idRng.idx = idRng.idx) ∧
    collect_solutions 1 3 ⟨2, 1, 1⟩ idRng = collect_solutions 1 3 ⟨2, 1, 1⟩ idRng :=
  ⟨⟨rfl, rfl, rfl, rfl, rfl⟩,
   (run_determinism idRng idRng rfl rfl rfl rfl rfl).1 1 3 ⟨2, 1, 1⟩⟩

/-! ## C3: the Sudoku row invariant -/

/-- Multiset of the values of row r of a board. -/
def rowMS (b : Board) (r : Fin 9) : Multiset Nat :=
  Multiset.map (fun c => b r c) Finset.univ.val

/-- The multiset of the digits 1..9. -/
def digitsMS : Multiset Nat := (((List.range 9).map (· + 1) : List Nat) : Multiset Nat)

/-- The given values of row r, in column order. -/
def givenVals (gv : Givens) (r : Fin 9) : List Nat :=
  (List.finRange 9).filterMap (fun c => gv r c)

/-- Every row is a permutation of the digits 1..9, and every given cell
holds its given value. -/
def RowsValid (gv : Givens) (b : Board) : Prop :=
  (∀ r, rowMS b r = digitsMS) ∧ (∀ r c v, gv r c = some v → b r c = v)

/-- Well-formed givens: within each row the given digits are pairwise
distinct digits 1..9, as holds for every puzzle cut from a full solution. -/
def GivensWF (gv : Givens) : Prop :=
  ∀ r, (givenVals gv r).Nodup ∧ ∀ v ∈ givenVals gv r, 1 ≤ v ∧ v ≤ 9

instance (gv : Givens) : Decidable (GivensWF gv) := by
  unfold GivensWF
  infer_instance

lemma map_getD_of_filter_not_isNone {α β : Type} (l : List α) (f : α → Option β)
    (d : α → β) :
    (l.filter fun a => !(f a).isNone).map (fun a => (f a).getD (d a)) = l.filterMap f := by
  induction l with
  | nil => rfl
  | cons x xs ih =>
    cases hx : f x with
    | none => simpa [List.filter_cons, List.filterMap_cons, hx] using ih
    | some v => simpa [List.filter_cons, List.filterMap_cons, hx] using ih

lemma map_getD_indexOf {β : Type} [DecidableEq β] (aux : List β) (filler : List Nat)
    (hnd : aux.Nodup) (hlen : filler.length = aux.length) :
    aux.map (fun c => filler.getD (aux.indexOf c) 0) = filler := by
  apply List.ext_getElem
  · simp [hlen]
  · intro n h1 h2
    rw [List.getElem_map]
    have hna : n < aux.length := by simpa using h1
    rw [List.indexOf_getElem hnd n hna]
    exact List.getD_eq_getElem filler 0 h2

lemma foldl_erase_eq_filterMap {α : Type} (l : List α) (f : α → Option Nat) :
    ∀ ds : List Nat,
      l.foldl (fun ds a =>
        match f a with
        | some v => ds.erase v
        | none => ds) ds =
      (l.filterMap f).foldl (fun ds v => ds.erase v) ds := by
  induction l with
  | nil =>
    intro ds
    rfl
  | cons x xs ih =>
    intro ds
    cases hx : f x with
    | none => simp [List.filterMap_cons, hx, ih]
    | some v => simp [List.filterMap_cons, hx, ih]

lemma coe_foldl_erase (vs : List Nat) : ∀ ds : List Nat,
    ((vs.foldl (fun d v => d.erase v) ds : List Nat) : Multiset Nat) =
      (ds : Multiset Nat) - (vs : Multiset Nat) := by
  induction vs with
  | nil =>
    intro ds
    simp
  | cons v vs ih =>
    intro ds
    rw [List.foldl_cons, ih (ds.erase v)]
    rw [show ((v :: vs : List Nat) : Multiset Nat) = v ::ₘ (vs : Multiset Nat) from rfl]
    rw [Multiset.sub_cons, ← Multiset.coe_erase]

lemma rowDigits_coe (gv : Givens) (r : Fin 9) :
    ((rowDigits gv r : List Nat) : Multiset Nat) =
      digitsMS - ((givenVals gv r : List Nat) : Multiset Nat) := by
  unfold rowDigits givenVals
  rw [foldl_erase_eq_filterMap, coe_foldl_erase]
  rfl

lemma digitsMS_count (v : Nat) (h1 : 1 ≤ v) (h2 : v ≤ 9) :
    Multiset.count v digitsMS = 1 := by
  have hall : ∀ w : Nat, w < 10 → 1 ≤ w → Multiset.count w digitsMS = 1 := by decide
  exact hall v (by omega) h1

lemma givenVals_le_digits (gvl : List Nat) (hnd : gvl.Nodup)
    (hrange : ∀ v ∈ gvl, 1 ≤ v ∧ v ≤ 9) :
    ((gvl : List Nat) : Multiset Nat) ≤ digitsMS := by
  rw [Multiset.le_iff_count]
  intro a
  by_cases ha : a ∈ gvl
  · have h1 : Multiset.count a ((gvl : List Nat) : Multiset Nat) ≤ 1 :=
      Multiset.nodup_iff_count_le_one.mp (by rwa [Multiset.coe_nodup]) a
    have h2 := digitsMS_count a (hrange a ha).1 (hrange a ha).2
    omega
  · have h0 : Multiset.count a ((gvl : List Nat) : Multiset Nat) = 0 := by
      rw [Multiset.count_eq_zero]
      simpa using ha
    omega

lemma buildRow_rowMS (gv : Givens) (r : Fin 9) (filler : List Nat)
    (hperm : filler.Perm (rowDigits gv r))
    (hnd : (givenVals gv r).Nodup)
    (hrange : ∀ v ∈ givenVals gv r, 1 ≤ v ∧ v ≤ 9) :
    Multiset.map (fun c => buildRow gv r filler c) Finset.univ.val = digitsMS := by
  have huniv : (Finset.univ : Finset (Fin 9)).val =
      ((List.finRange 9 : List (Fin 9)) : Multiset (Fin 9)) := rfl
  rw [huniv, Multiset.map_coe]
  have hsplit := List.filter_append_perm (fun c => (gv r c).isNone) (List.finRange 9)
  have hB : ((List.finRange 9).filter fun c => !(gv r c).isNone).map
      (fun c => buildRow gv r filler c) = givenVals gv r := by
    unfold buildRow
    exact map_getD_of_filter_not_isNone (List.finRange 9) (fun c => gv r c) _
  have hlen9 : ((List.finRange 9).filter fun c => (gv r c).isNone).length +
      ((List.finRange 9).filter fun c => !(gv r c).isNone).length = 9 := by
    have := hsplit.length_eq
    simpa using this
  have hgvlen : (givenVals gv r).length =
      ((List.finRange 9).filter fun c => !(gv r c).isNone).length := by
    rw [← hB, List.length_map]
  have hfl : filler.length = (rowDigits gv r).length := hperm.length_eq
  have hrdlen : (rowDigits gv r).length = 9 - (givenVals gv r).length := by
    have hcoe := congrArg Multiset.card (rowDigits_coe gv r)
    rw [Multiset.card_sub (givenVals_le_digits _ hnd hrange)] at hcoe
    simpa [digitsMS] using hcoe
  have hfreeNd : ((List.finRange 9).filter fun c => (gv r c).isNone).Nodup :=
    (List.nodup_finRange 9).filter _
  have hA : ((List.finRange 9).filter fun c => (gv r c).isNone).map
      (fun c => buildRow gv r filler c) = filler := by
    have hcong : ∀ c ∈ (List.finRange 9).filter fun c => (gv r c).isNone,
        buildRow gv r filler c = filler.getD ((freeCols gv r).indexOf c) 0 := by
      intro c hc
      have hcn : (gv r c).isNone := (List.mem_filter.mp hc).2
      unfold buildRow
      cases hgc : gv r c with
      | none => rfl
      | some v =>
        rw [hgc] at hcn
        simp at hcn
    rw [List.map_congr_left hcong]
    exact map_getD_indexOf _ filler hfreeNd (by unfold freeCols; omega)
  have hstep : ((List.finRange 9).map (fun c => buildRow gv r filler c) : Multiset Nat) =
      ((((List.finRange 9).filter fun c => (gv r c).isNone) ++
        ((List.finRange 9).filter fun c => !(gv r c).isNone)).map
          (fun c => buildRow gv r filler c) : List Nat) := by
    rw [Multiset.coe_eq_coe]
    exact (hsplit.map _).symm
  rw [hstep, List.map_append, hA, hB]
  rw [show ((filler ++ givenVals gv r : List Nat) : Multiset Nat) =
      (filler : Multiset Nat) + (givenVals gv r : Multiset Nat) from rfl]
  have h1 : (filler : Multiset Nat) = digitsMS - ((givenVals gv r : List Nat) : Multiset Nat) := by
    rw [Multiset.coe_eq_coe.mpr hperm, rowDigits_coe]
  rw [h1]
  exact tsub_add_cancel_of_le (givenVals_le_digits _ hnd hrange)

lemma random_initial_state_valid (gv : Givens) (g : Rng) (hwf : GivensWF gv) :
    RowsValid gv (random_initial_state gv g).1 := by
  constructor
  · intro r
    show Multiset.map
        (fun c => buildRow gv r (g.shuffleNat (g.idx + r.val) (rowDigits gv r)) c)
        Finset.univ.val = digitsMS
    exact buildRow_rowMS gv r _ (g.shuffleNat_perm _ _) (hwf r).1 (hwf r).2
  · intro r c v hv
    show buildRow gv r (g.shuffleNat (g.idx + r.val) (rowDigits gv r)) c = v
    unfold buildRow
    rw [hv]
    rfl

lemma univ_map_swap (a c : Fin 9) :
    Multiset.map (⇑(Equiv.swap a c)) (Finset.univ : Finset (Fin 9)).val =
      (Finset.univ : Finset (Fin 9)).val := by
  have hm := Finset.map_univ_equiv (Equiv.swap a c)
  calc Multiset.map (⇑(Equiv.swap a c)) Finset.univ.val
      = (Finset.univ.map (Equiv.swap a c).toEmbedding).val := by
        rw [Finset.map_val]
        rfl
    _ = Finset.univ.val := by rw [hm]

lemma swapCells_rowMS (b : Board) (r a c : Fin 9) (r2 : Fin 9) :
    rowMS (swapCells b r a c) r2 = rowMS b r2 := by
  by_cases hr : r2 = r
  · subst hr
    have hfun : ∀ c2, swapCells b r2 a c r2 c2 = b r2 (Equiv.swap a c c2) := by
      intro c2
      unfold swapCells
      rw [if_pos rfl, Equiv.swap_apply_def]
      by_cases h1 : c2 = a
      · simp [h1]
      · by_cases h2 : c2 = c
        · subst h2
          by_cases h3 : c2 = a <;> simp [h1, h3]
        · simp [h1, h2]
    unfold rowMS
    rw [Multiset.map_congr rfl (fun c2 _ => hfun c2)]
    rw [show (fun c2 => b r2 (Equiv.swap a c c2)) = (fun x => b r2 x) ∘ ⇑(Equiv.swap a c)
      from rfl]
    rw [← Multiset.map_map, univ_map_swap]
  · unfold rowMS swapCells
    apply Multiset.map_congr rfl
    intro c2 _
    rw [if_neg hr]

lemma swapCells_given (gv : Givens) (b : Board) (r a c : Fin 9)
    (ha : (gv r a).isNone) (hc : (gv r c).isNone)
    (hg : ∀ r2 c2 v, gv r2 c2 = some v → b r2 c2 = v) :
    ∀ r2 c2 v, gv r2 c2 = some v → swapCells b r a c r2 c2 = v := by
  intro r2 c2 v hv
  unfold swapCells
  by_cases hr : r2 = r
  · subst hr
    by_cases h1 : c2 = a
    · subst h1
      rw [hv] at ha
      simp at ha
    · by_cases h2 : c2 = c
      · subst h2
        rw [hv] at hc
        simp at hc
      · rw [if_pos rfl, if_neg h1, if_neg h2]
        exact hg _ _ _ hv
  · rw [if_neg hr]
    exact hg _ _ _ hv

lemma swapCells_rowsValid (gv : Givens) (b : Board) (r a c : Fin 9)
    (ha : (gv r a).isNone) (hc : (gv r c).isNone)
    (hb : RowsValid gv b) : RowsValid gv (swapCells b r a c) := by
  constructor
  · intro r2
    rw [swapCells_rowMS]
    exact hb.1 r2
  · exact swapCells_given gv b r a c ha hc hb.2

lemma freeCols_isNone (gv : Givens) (r : Fin 9) :
    ∀ c ∈ freeCols gv r, (gv r c).isNone := by
  intro c hc
  exact (List.mem_filter.mp hc).2

lemma getD_mem_of_lt {β : Type} (l : List β) (i : Nat) (d : β) (h : i < l.length) :
    l.getD i d ∈ l := by
  rw [List.getD_eq_getElem l d h]
  exact List.getElem_mem h

lemma randRange_lt (g : Rng) (n : Nat) (h : 0 < n) : (g.randRange n).1 < n :=
  Nat.mod_lt _ h

lemma randRangeNe_lt (g : Rng) (n c : Nat) (h : 2 ≤ n) : (g.randRangeNe n c h).1 < n :=
  Nat.mod_lt _ (by omega)

lemma swap_free_valid (gv : Givens) (b : Board) (row : Fin 9) (iA iB : Nat)
    (hA : iA < (freeCols gv row).length) (hB : iB < (freeCols gv row).length)
    (hb : RowsValid gv b) :
    RowsValid gv (swapCells b row ((freeCols gv row).getD iA defaultFin9)
      ((freeCols gv row).getD iB defaultFin9)) :=
  swapCells_rowsValid gv b row _ _
    (freeCols_isNone gv row _ (getD_mem_of_lt _ _ _ hA))
    (freeCols_isNone gv row _ (getD_mem_of_lt _ _ _ hB)) hb

lemma sudokuStep_rowsValid (gv : Givens) (cooling : Rat) (s : SState)
    (hb : RowsValid gv s.board) (hbest : RowsValid gv s.best) :
    RowsValid gv (sudokuStep gv cooling s).board ∧
    RowsValid gv (sudokuStep gv cooling s).best := by
  unfold sudokuStep
  dsimp only
  split
  · exact ⟨hb, hbest⟩
  · rename_i hlen
    refine ⟨?_, ?_⟩ <;>
    (repeat' split) <;>
    first
      | exact hb
      | exact hbest
      | exact absurd rfl (by assumption)
      | exact swap_free_valid _ _ _ _ _ (randRange_lt _ _ (by omega))
          (randRangeNe_lt _ _ _ _) hb
      | exact swap_free_valid _ _ _ _ _ (randRange_lt _ _ (by omega))
          (randRangeNe_lt _ _ _ _)
          (swap_free_valid _ _ _ _ _ (randRange_lt _ _ (by omega))
            (randRangeNe_lt _ _ _ _) hb)

lemma solveLoop_rowsValid (gv : Givens) (cooling : Rat) :
    ∀ fuel s, RowsValid gv s.board → RowsValid gv s.best →
      RowsValid gv (solveLoop gv cooling fuel s).board ∧
      RowsValid gv (solveLoop gv cooling fuel s).best := by
  intro fuel
  induction fuel with
  | zero =>
    intro s h1 h2
    exact ⟨h1, h2⟩
  | succ fuel ih =>
    intro s h1 h2
    simp only [solveLoop]
    split
    · exact ⟨h1, h2⟩
    · obtain ⟨h3, h4⟩ := sudokuStep_rowsValid gv cooling s h1 h2
      exact ih _ h3 h4

/-- C3: for well-formed givens (each row's given digits pairwise distinct
and in 1..9, as every puzzle cut from a full solution satisfies), the
working board of solve satisfies at all times that every row is a
permutation of the digits 1..9 and every given cell holds its given value:
random_initial_state establishes the invariant, every iteration (accepted
or rejected, swapping only two free cells of one row) preserves it for both
the working board and the tracked best board, and it holds for the board
and best state after any number of loop iterations, in particular for the
returned best state. -/
theorem sudoku_row_invariant (gv : Givens) (hwf : GivensWF gv) :
    (∀ g, RowsValid gv (random_initial_state gv g).1) ∧
    (∀ cooling s, RowsValid gv s.board → RowsValid gv s.best →
      RowsValid gv (sudokuStep gv cooling s).board ∧
      RowsValid gv (sudokuStep gv cooling s).best) ∧
    (∀ (cfg : SamplerConfig) (g : Rng) n,
      RowsValid gv (solveLoop gv (clampCooling cfg.cooling_rate) n (initS gv cfg g)).board ∧
      RowsValid gv (solveLoop gv (clampCooling cfg.cooling_rate) n (initS gv cfg g)).best) ∧
    (∀ (cfg : SamplerConfig) (g : Rng),
      RowsValid gv (solve gv cfg g).best ∧ RowsValid gv (solve gv cfg g).board) := by
  have hinit : ∀ g, RowsValid gv (random_initial_state gv g).1 := fun g =>
    random_initial_state_valid gv g hwf
  refine ⟨hinit, fun cooling s h1 h2 => sudokuStep_rowsValid gv cooling s h1 h2, ?_, ?_⟩
  · intro cfg g n
    exact solveLoop_rowsValid gv _ n (initS gv cfg g) (hinit g) (hinit g)
  · intro cfg g
    obtain ⟨h1, h2⟩ := solveLoop_rowsValid gv (clampCooling cfg.cooling_rate) cfg.max_steps
      (initS gv cfg g) (hinit g) (hinit g)
    exact ⟨h2, h1⟩

/-- Witness for C3 at the puzzle with no givens. -/
theorem sudoku_row_invariant_witness :
    GivensWF (fun _ _ => none) ∧
    (∀ g, RowsValid (fun _ _ => none) (random_initial_state (fun _ _ => none) g).1) :=
  ⟨by decide, (sudoku_row_invariant (fun _ _ => none) (by decide)).1⟩

/-! ## C10: best-state tracking -/

lemma swapCells_swapCells (b : Board) (r a c : Fin 9) :
    swapCells (swapCells b r a c) r a c = b := by
  funext r2 c2
  unfold swapCells
  by_cases hr : r2 = r <;> by_cases h1 : c2 = a <;> by_cases h2 : c2 = c <;>
    by_cases h3 : c = a <;> simp_all

lemma trackRecord (e0 newE bestE : Nat) (b2 best : Board) (accepted : List Nat)
    (h1 : bestE = sudokuEnergy best)
    (h4 : bestE = List.foldl min e0 accepted)
    (hb2 : newE = sudokuEnergy b2) :
    (if newE < bestE then newE else bestE) =
      sudokuEnergy (if newE < bestE then b2 else best) ∧
    (if newE < bestE then newE else bestE) ≤ newE ∧
    (if newE < bestE then newE else bestE) =
      List.foldl min e0 (accepted ++ [newE]) := by
  have hfold : List.foldl min e0 (accepted ++ [newE]) =
      min (List.foldl min e0 accepted) newE := by
    rw [List.foldl_append]
    rfl
  refine ⟨?_, ?_, ?_⟩
  · by_cases hc : newE < bestE
    · rw [if_pos hc, if_pos hc]
      exact hb2
    · rw [if_neg hc, if_neg hc]
      exact h1
  · split <;> omega
  · rw [hfold, ← h4]
    split <;> omega

lemma sudokuStep_tracking (gv : Givens) (cooling : Rat) (e0 : Nat) (s : SState)
    (h1 : s.bestE = sudokuEnergy s.best) (h2 : s.bestE ≤ s.energy)
    (h3 : s.energy = sudokuEnergy s.board)
    (h4 : s.bestE = List.foldl min e0 s.accepted) :
    (sudokuStep gv cooling s).bestE = sudokuEnergy (sudokuStep gv cooling s).best ∧
    (sudokuStep gv cooling s).bestE ≤ (sudokuStep gv cooling s).energy ∧
    (sudokuStep gv cooling s).energy = sudokuEnergy (sudokuStep gv cooling s).board ∧
    (sudokuStep gv cooling s).bestE =
      List.foldl min e0 (sudokuStep gv cooling s).accepted := by
  unfold sudokuStep
  dsimp only
  split
  · exact ⟨h1, h2, h3, h4⟩
  · split
    · -- unconditional accept (delta nonpositive)
      refine ⟨?_, ?_, rfl, ?_⟩
      · exact (trackRecord e0 _ s.bestE _ s.best s.accepted h1 h4 rfl).1
      · exact (trackRecord e0 _ s.bestE _ s.best s.accepted h1 h4 rfl).2.1
      · exact (trackRecord e0 _ s.bestE _ s.best s.accepted h1 h4 rfl).2.2
    · split
      · -- Metropolis draw accepted
        refine ⟨?_, ?_, rfl, ?_⟩
        · exact (trackRecord e0 _ s.bestE _ s.best s.accepted h1 h4 rfl).1
        · exact (trackRecord e0 _ s.bestE _ s.best s.accepted h1 h4 rfl).2.1
        · exact (trackRecord e0 _ s.bestE _ s.best s.accepted h1 h4 rfl).2.2
      · -- rejected: the second swap restores the board
        refine ⟨h1, h2, ?_, h4⟩
        show s.energy = sudokuEnergy (swapCells (swapCells s.board _ _ _) _ _ _)
        rw [swapCells_swapCells]
        exact h3

lemma solveLoop_tracking (gv : Givens) (cooling : Rat) (e0 : Nat) :
    ∀ fuel s,
      s.bestE = sudokuEnergy s.best → s.bestE ≤ s.energy →
      s.energy = sudokuEnergy s.board → s.bestE = List.foldl min e0 s.accepted →
      (solveLoop gv cooling fuel s).bestE =
          sudokuEnergy (solveLoop gv cooling fuel s).best ∧
        (solveLoop gv cooling fuel s).bestE ≤ (solveLoop gv cooling fuel s).energy ∧
        (solveLoop gv cooling fuel s).energy =
          sudokuEnergy (solveLoop gv cooling fuel s).board ∧
        (solveLoop gv cooling fuel s).bestE =
          List.foldl min e0 (solveLoop gv cooling fuel s).accepted := by
  intro fuel
  induction fuel with
  | zero =>
    intro s h1 h2 h3 h4
    exact ⟨h1, h2, h3, h4⟩
  | succ fuel ih =>
    intro s h1 h2 h3 h4
    simp only [solveLoop]
    split
    · exact ⟨h1, h2, h3, h4⟩
    · obtain ⟨k1, k2, k3, k4⟩ := sudokuStep_tracking gv cooling e0 s h1 h2 h3 h4
      exact ih _ k1 k2 k3 k4

/-- C10: throughout the Sudoku solve loop (after any number of iterations)
and at return, the tracked best state satisfies energy(best_state) =
best_energy, best_energy never exceeds the current energy, and best_energy
equals the minimum of the initial energy and all accepted energies (the
fold of min over the ghost list of accepted energies); hence whenever solve
returns best_energy = 0 the returned board itself has energy zero, a
complete valid solution rather than a low-energy snapshot. -/
theorem best_tracking_invariant (gv : Givens) (cfg : SamplerConfig) (g : Rng) :
    (∀ n,
      (solveLoop gv (clampCooling cfg.cooling_rate) n (initS gv cfg g)).bestE =
        sudokuEnergy (solveLoop gv (clampCooling cfg.cooling_rate) n (initS gv cfg g)).best ∧
      (solveLoop gv (clampCooling cfg.cooling_rate) n (initS gv cfg g)).bestE ≤
        (solveLoop gv (clampCooling cfg.cooling_rate) n (initS gv cfg g)).energy ∧
      (solveLoop gv (clampCooling cfg.cooling_rate) n (initS gv cfg g)).bestE =
        List.foldl min (initS gv cfg g).energy
          (solveLoop gv (clampCooling cfg.cooling_rate) n (initS gv cfg g)).accepted) ∧
    (solve gv cfg g).bestE = sudokuEnergy (solve gv cfg g).best ∧
    (solve gv cfg g).bestE =
      List.foldl min (initS gv cfg g).energy (solve gv cfg g).accepted ∧
    ((solve gv cfg g).bestE = 0 → sudokuEnergy (solve gv cfg g).best = 0) := by
  have hloop := fun n => solveLoop_tracking gv (clampCooling cfg.cooling_rate)
    (initS gv cfg g).energy n (initS gv cfg g) rfl (le_refl _) rfl rfl
  refine ⟨fun n => ⟨(hloop n).1, (hloop n).2.1, (hloop n).2.2.2⟩, ?_, ?_, ?_⟩
  · exact (hloop cfg.max_steps).1
  · exact (hloop cfg.max_steps).2.2.2
  · intro h0
    unfold solve at h0 ⊢
    rw [← (hloop cfg.max_steps).1]
    exact h0

/-! ## C8: a puzzle with zero holes is already solved -/

lemma map_getD_range (l : List Nat) :
    (List.range l.length).map (fun i => l.getD i 0) = l := by
  apply List.ext_getElem
  · simp
  · intro n h1 h2
    rw [List.getElem_map, List.getElem_range]
    exact List.getD_eq_getElem l 0 h2

lemma finRange_map_val_comp {α : Type} (n : Nat) (G : Nat → α) :
    (List.finRange n).map (fun i => G i.val) = (List.range n).map G := by
  rw [show (fun i : Fin n => G i.val) = G ∘ Fin.val from rfl, ← List.map_map,
    List.map_coe_finRange]

lemma getD_append_left (l1 l2 : List Nat) (i : Nat) (h : i < l1.length) :
    (l1 ++ l2).getD i 0 = l1.getD i 0 := by
  rw [List.getD_eq_getElem _ _ (by rw [List.length_append]; omega),
    List.getD_eq_getElem _ _ h]
  exact List.getElem_append_left h

lemma getD_append_right3 (l1 l2 : List Nat) (i : Nat) (h1 : l1.length ≤ i)
    (h2 : i - l1.length < l2.length) :
    (l1 ++ l2).getD i 0 = l2.getD (i - l1.length) 0 := by
  rw [List.getD_eq_getElem _ _ (by rw [List.length_append]; omega),
    List.getD_eq_getElem _ _ h2]
  exact List.getElem_append_right h1

lemma flatMap_blocks_length (F : Nat → List Nat) (hF : ∀ A, (F A).length = 3) :
    ∀ n, ((List.range n).flatMap F).length = 3 * n := by
  intro n
  induction n with
  | zero => rfl
  | succ n ih =>
    rw [List.range_succ, List.flatMap_append, List.length_append, ih]
    have h3 : ([n].flatMap F).length = 3 := by
      simp [List.flatMap_cons, List.flatMap_nil, hF n]
    omega

lemma flatMap_blocks_getD (F : Nat → List Nat) (hF : ∀ A, (F A).length = 3) :
    ∀ n A t, A < n → t < 3 →
      ((List.range n).flatMap F).getD (3 * A + t) 0 = (F A).getD t 0 := by
  intro n
  induction n with
  | zero =>
    intro A t hA ht
    exact absurd hA (Nat.not_lt_zero A)
  | succ n ih =>
    intro A t hA ht
    rw [List.range_succ, List.flatMap_append]
    by_cases hAn : A < n
    · rw [getD_append_left _ _ _ (by rw [flatMap_blocks_length F hF n]; omega)]
      exact ih A t hAn ht
    · have hAe : A = n := by omega
      subst hAe
      rw [getD_append_right3 _ _ _ (by rw [flatMap_blocks_length F hF A]; omega)
        (by
          rw [flatMap_blocks_length F hF A]
          simp [List.flatMap_cons, List.flatMap_nil, hF A]
          omega)]
      rw [flatMap_blocks_length F hF A]
      have hsub : 3 * A + t - 3 * A = t := by omega
      rw [hsub]
      simp [List.flatMap_cons, List.flatMap_nil]

lemma getD_map3 (offs : List Nat) (b t : Nat) (hl : offs.length = 3) (ht : t < 3) :
    (offs.map (fun o => b * 3 + o)).getD t 0 = b * 3 + offs.getD t 0 := by
  rw [List.getD_eq_getElem _ _ (by rw [List.length_map]; omega),
    List.getD_eq_getElem _ _ (by omega : t < offs.length), List.getElem_map]

lemma bandExpand_block (bl : List Nat) (g : Rng) (hlb : bl.Perm [0, 1, 2]) :
    ∀ A : Nat, A < 3 → ∃ (b : Nat) (offs : List Nat), b < 3 ∧ offs.Perm [0, 1, 2] ∧
      ∀ t : Nat, t < 3 → (bandExpand bl g).1.getD (3 * A + t) 0 = b * 3 + offs.getD t 0 := by
  intro A hA
  have hlen : bl.length = 3 := hlb.length_eq
  have hF : ∀ A2, ((g.shuffleNat (g.idx + A2) ([0, 1, 2] : List Nat)).map
      (fun o => bl.getD A2 0 * 3 + o)).length = 3 := by
    intro A2
    rw [List.length_map]
    simpa using (g.shuffleNat_perm (g.idx + A2) [0, 1, 2]).length_eq
  refine ⟨bl.getD A 0, g.shuffleNat (g.idx + A) [0, 1, 2], ?_,
    g.shuffleNat_perm _ _, ?_⟩
  · have hmem : bl.getD A 0 ∈ bl := getD_mem_of_lt bl A 0 (by omega)
    have h012 : bl.getD A 0 = 0 ∨ bl.getD A 0 = 1 ∨ bl.getD A 0 = 2 := by
      simpa using hlb.mem_iff.mp hmem
    omega
  · intro t ht
    unfold bandExpand
    dsimp only
    rw [flatMap_blocks_getD _ hF bl.length A t (by omega) ht]
    exact getD_map3 _ _ _ (by simpa using (g.shuffleNat_perm (g.idx + A) [0, 1, 2]).length_eq) ht

lemma bandExpand_perm (bl : List Nat) (g : Rng) (hlb : bl.Perm [0, 1, 2]) :
    (bandExpand bl g).1.Perm (List.range 9) := by
  unfold bandExpand
  dsimp only
  have h1 : ((List.range bl.length).flatMap
      (fun A => (g.shuffleNat (g.idx + A) [0, 1, 2]).map (fun o => bl.getD A 0 * 3 + o))).Perm
      ((List.range bl.length).flatMap
      (fun A => ([0, 1, 2] : List Nat).map (fun o => bl.getD A 0 * 3 + o))) :=
    List.Perm.flatMap_left _ (fun A _ => (g.shuffleNat_perm _ _).map _)
  have h2 : (List.range bl.length).flatMap
      (fun A => ([0, 1, 2] : List Nat).map (fun o => bl.getD A 0 * 3 + o)) =
      bl.flatMap (fun b => ([0, 1, 2] : List Nat).map (fun o => b * 3 + o)) := by
    conv_rhs => rw [← map_getD_range bl]
    rw [List.flatMap_map]
  have h3 : (bl.flatMap (fun b => ([0, 1, 2] : List Nat).map (fun o => b * 3 + o))).Perm
      (([0, 1, 2] : List Nat).flatMap
        (fun b => ([0, 1, 2] : List Nat).map (fun o => b * 3 + o))) :=
    hlb.flatMap_right _
  have h4 : ([0, 1, 2] : List Nat).flatMap
      (fun b => ([0, 1, 2] : List Nat).map (fun o => b * 3 + o)) = List.range 9 := by decide
  rw [h2] at h1
  rw [h4] at h3
  exact h1.trans h3

lemma perm012_cases (l : List Nat) (h : l.Perm [0, 1, 2]) :
    l = [0, 1, 2] ∨ l = [0, 2, 1] ∨ l = [1, 0, 2] ∨ l = [1, 2, 0] ∨
    l = [2, 0, 1] ∨ l = [2, 1, 0] := by
  have hlen : l.length = 3 := by simpa using h.length_eq
  rcases l with _ | ⟨a, l⟩
  · simp at hlen
  rcases l with _ | ⟨b, l⟩
  · simp at hlen
  rcases l with _ | ⟨c, l⟩
  · simp at hlen
  have hlnil : l = [] := by
    cases l with
    | nil => rfl
    | cons d l2 => simp at hlen
  subst hlnil
  have ha : a = 0 ∨ a = 1 ∨ a = 2 := by
    simpa using h.mem_iff.mp (by simp : a ∈ [a, b, c])
  have hb : b = 0 ∨ b = 1 ∨ b = 2 := by
    simpa using h.mem_iff.mp (by simp : b ∈ [a, b, c])
  have hc : c = 0 ∨ c = 1 ∨ c = 2 := by
    simpa using h.mem_iff.mp (by simp : c ∈ [a, b, c])
  have h0 := h.count_eq 0
  have h1 := h.count_eq 1
  have h2 := h.count_eq 2
  rcases ha with ha | ha | ha <;> rcases hb with hb | hb | hb <;>
    rcases hc with hc | hc | hc <;> subst ha <;> subst hb <;> subst hc <;>
    simp_all [List.count_cons]

lemma perm012_getD_lt (l : List Nat) (h : l.Perm [0, 1, 2]) (t : Nat) (ht : t < 3) :
    l.getD t 0 < 3 := by
  have hl : l.length = 3 := by simpa using h.length_eq
  have hmem : l.getD t 0 ∈ l := getD_mem_of_lt l t 0 (by omega)
  have h012 : l.getD t 0 = 0 ∨ l.getD t 0 = 1 ∨ l.getD t 0 = 2 := by
    simpa using h.mem_iff.mp hmem
  omega

lemma pattern_perm_col :
    ∀ c : Nat, c < 9 → ((List.range 9).map (fun r => pattern r c)).Perm (List.range 9) := by
  decide

lemma add_mod_perm :
    ∀ K : Nat, K < 9 → ((List.range 9).map (fun x => (x + K) % 9)).Perm (List.range 9) := by
  decide

lemma count_filter_univ {γ : Type} [Fintype γ] [DecidableEq γ] (f : γ → Nat) (v : Nat) :
    (Finset.univ.filter fun x => f x = v).card =
      Multiset.count v (Multiset.map f Finset.univ.val) := by
  rw [Multiset.count_map]
  have h1 : (Finset.univ.filter fun x => f x = v).card =
      Multiset.card (Multiset.filter (fun x => f x = v) (Finset.univ : Finset γ).val) := by
    rw [← Finset.filter_val]
    rfl
  rw [h1]
  congr 1
  exact Multiset.filter_congr (fun x _ => eq_comm)

lemma finRange_map_eq_range_map {α : Type} (n : Nat) (f : Fin n → α) (G : Nat → α)
    (h : ∀ i : Fin n, f i = G i.val) :
    (List.finRange n).map f = (List.range n).map G := by
  apply List.ext_getElem
  · simp
  · intro k h1 h2
    rw [List.getElem_map, List.getElem_map, List.getElem_range, h]
    congr 1
    show ((List.finRange n).get ⟨k, by simpa using h1⟩).val = k
    rw [List.get_finRange]

lemma box_idx_perm (offs coffs : List Nat) (ho : offs.Perm [0, 1, 2])
    (hco : coffs.Perm [0, 1, 2]) (K : Nat) (hK : K < 9) :
    ([(3 * offs.getD 0 0 + coffs.getD 0 0 + K) % 9,
      (3 * offs.getD 0 0 + coffs.getD 1 0 + K) % 9,
      (3 * offs.getD 0 0 + coffs.getD 2 0 + K) % 9,
      (3 * offs.getD 1 0 + coffs.getD 0 0 + K) % 9,
      (3 * offs.getD 1 0 + coffs.getD 1 0 + K) % 9,
      (3 * offs.getD 1 0 + coffs.getD 2 0 + K) % 9,
      (3 * offs.getD 2 0 + coffs.getD 0 0 + K) % 9,
      (3 * offs.getD 2 0 + coffs.getD 1 0 + K) % 9,
      (3 * offs.getD 2 0 + coffs.getD 2 0 + K) % 9] : List Nat).Perm (List.range 9) := by
  have hbase : ([3 * offs.getD 0 0 + coffs.getD 0 0,
      3 * offs.getD 0 0 + coffs.getD 1 0,
      3 * offs.getD 0 0 + coffs.getD 2 0,
      3 * offs.getD 1 0 + coffs.getD 0 0,
      3 * offs.getD 1 0 + coffs.getD 1 0,
      3 * offs.getD 1 0 + coffs.getD 2 0,
      3 * offs.getD 2 0 + coffs.getD 0 0,
      3 * offs.getD 2 0 + coffs.getD 1 0,
      3 * offs.getD 2 0 + coffs.getD 2 0] : List Nat).Perm (List.range 9) := by
    rcases perm012_cases offs ho with h | h | h | h | h | h <;>
      rcases perm012_cases coffs hco with h2 | h2 | h2 | h2 | h2 | h2 <;>
      rw [h, h2] <;> decide
  exact (hbase.map (fun x => (x + K) % 9)).trans (add_mod_perm K hK)

lemma range9_map_getD (nums : List Nat) (hnl : nums.length = 9) :
    (List.range 9).map (fun x => nums.getD x 0) = nums := by
  apply List.ext_getElem
  · simp [hnl]
  · intro k h1 h2
    rw [List.getElem_map, List.getElem_range]
    exact List.getD_eq_getElem nums 0 h2

lemma col_list_perm (rows nums : List Nat) (c : Nat)
    (hrows : rows.Perm (List.range 9)) (hc : c < 9)
    (hnums : nums.Perm ((List.range 9).map (· + 1))) :
    ((List.range 9).map (fun i => nums.getD (pattern (rows.getD i 0) c) 0)).Perm
      ((List.range 9).map (· + 1)) := by
  have hrl : rows.length = 9 := by simpa using hrows.length_eq
  have hnl : nums.length = 9 := by simpa using hnums.length_eq
  have e1 : (List.range 9).map (fun i => nums.getD (pattern (rows.getD i 0) c) 0) =
      rows.map (fun r => nums.getD (pattern r c) 0) := by
    apply List.ext_getElem
    · simp [hrl]
    · intro k h1 h2
      rw [List.getElem_map, List.getElem_map, List.getElem_range,
        List.getD_eq_getElem rows 0 (by simpa using h2)]
  have p1 : (rows.map fun r => nums.getD (pattern r c) 0).Perm
      ((List.range 9).map fun r => nums.getD (pattern r c) 0) := hrows.map _
  have e2 : (List.range 9).map (fun r => nums.getD (pattern r c) 0) =
      ((List.range 9).map fun r => pattern r c).map (fun x => nums.getD x 0) := by
    rw [List.map_map]
    rfl
  have p2 : (((List.range 9).map fun r => pattern r c).map fun x => nums.getD x 0).Perm
      ((List.range 9).map fun x => nums.getD x 0) := (pattern_perm_col c hc).map _
  rw [e1]
  refine p1.trans ?_
  rw [e2]
  refine p2.trans ?_
  rw [range9_map_getD nums hnl]
  exact hnums

lemma boxIdx_val (A t : Fin 3) : (boxIdx A t).val = 3 * A.val + t.val := rfl

lemma fin3_val0 : ((0 : Fin 3) : Nat) = 0 := rfl

lemma fin3_val1 : ((1 : Fin 3) : Nat) = 1 := rfl

lemma fin3_val2 : ((2 : Fin 3) : Nat) = 2 := rfl

lemma pattern_board_valid (rows cols nums : List Nat)
    (hrows : rows.Perm (List.range 9)) (hcols : cols.Perm (List.range 9))
    (hnums : nums.Perm ((List.range 9).map (· + 1)))
    (hrb : ∀ A : Nat, A < 3 → ∃ (b : Nat) (offs : List Nat), b < 3 ∧ offs.Perm [0, 1, 2] ∧
      ∀ t : Nat, t < 3 → rows.getD (3 * A + t) 0 = b * 3 + offs.getD t 0)
    (hcb : ∀ B : Nat, B < 3 → ∃ (b : Nat) (offs : List Nat), b < 3 ∧ offs.Perm [0, 1, 2] ∧
      ∀ t : Nat, t < 3 → cols.getD (3 * B + t) 0 = b * 3 + offs.getD t 0) :
    sudokuEnergy (fun i j => nums.getD (pattern (rows.getD i.val 0) (cols.getD j.val 0)) 0) = 0 := by
  have hcl : cols.length = 9 := by simpa using hcols.length_eq
  have hnl : nums.length = 9 := by simpa using hnums.length_eq
  have hdig : ∀ v, 1 ≤ v → v ≤ 9 → List.count v ((List.range 9).map (· + 1)) = 1 := by
    intro v h1 h2
    have := digitsMS_count v h1 h2
    rwa [digitsMS, Multiset.coe_count] at this
  have hcolcnt : ∀ (j : Fin 9) v, 1 ≤ v → v ≤ 9 →
      colCount (fun i j => nums.getD (pattern (rows.getD i.val 0) (cols.getD j.val 0)) 0)
        j v = 1 := by
    intro j v h1 h2
    have hj := j.isLt
    have hc : cols.getD j.val 0 < 9 := by
      have hmem : cols.getD j.val 0 ∈ cols := getD_mem_of_lt cols j.val 0 (by omega)
      simpa using hcols.mem_iff.mp hmem
    unfold colCount
    rw [count_filter_univ]
    rw [show (Finset.univ : Finset (Fin 9)).val =
      ((List.finRange 9 : List (Fin 9)) : Multiset (Fin 9)) from rfl]
    rw [Multiset.map_coe]
    rw [finRange_map_eq_range_map 9 _
      (fun i => nums.getD (pattern (rows.getD i 0) (cols.getD j.val 0)) 0) (fun i => rfl)]
    rw [Multiset.coe_count]
    rw [(col_list_perm rows nums (cols.getD j.val 0) hrows hc hnums).count_eq]
    exact hdig v h1 h2
  have hboxcnt : ∀ (A B : Fin 3) v, 1 ≤ v → v ≤ 9 →
      boxCount (fun i j => nums.getD (pattern (rows.getD i.val 0) (cols.getD j.val 0)) 0)
        A B v = 1 := by
    intro A B v h1 h2
    obtain ⟨bA, offs, hbA, hoffs, hreq⟩ := hrb A.val A.isLt
    obtain ⟨cB, coffs, hcB, hcoffs, hceq⟩ := hcb B.val B.isLt
    have hoff0 := perm012_getD_lt offs hoffs 0 (by omega)
    have hoff1 := perm012_getD_lt offs hoffs 1 (by omega)
    have hoff2 := perm012_getD_lt offs hoffs 2 (by omega)
    have hco0 := perm012_getD_lt coffs hcoffs 0 (by omega)
    have hco1 := perm012_getD_lt coffs hcoffs 1 (by omega)
    have hco2 := perm012_getD_lt coffs hcoffs 2 (by omega)
    unfold boxCount
    rw [count_filter_univ]
    rw [show (Finset.univ : Finset (Fin 3 × Fin 3)).val =
      (([((0 : Fin 3), (0 : Fin 3)), (0, 1), (0, 2), (1, 0), (1, 1), (1, 2),
         (2, 0), (2, 1), (2, 2)] : List (Fin 3 × Fin 3)) : Multiset (Fin 3 × Fin 3)) from by
        decide]
    rw [Multiset.map_coe, Multiset.coe_count]
    simp only [List.map_cons, List.map_nil, boxIdx_val, fin3_val0, fin3_val1, fin3_val2]
    rw [hreq 0 (by omega), hreq 1 (by omega), hreq 2 (by omega),
      hceq 0 (by omega), hceq 1 (by omega), hceq 2 (by omega)]
    have hidx : ∀ o co : Nat, o < 3 → co < 3 →
        pattern (bA * 3 + o) (cB * 3 + co) = (3 * o + co + (bA + cB * 3)) % 9 := by
      intro o co ho hco9
      have hmod : (bA * 3 + o) % 3 = o := by omega
      have hdiv : (bA * 3 + o) / 3 = bA := by omega
      unfold pattern
      rw [hmod, hdiv]
      congr 1
      ring
    rw [hidx _ _ hoff0 hco0, hidx _ _ hoff0 hco1, hidx _ _ hoff0 hco2,
      hidx _ _ hoff1 hco0, hidx _ _ hoff1 hco1, hidx _ _ hoff1 hco2,
      hidx _ _ hoff2 hco0, hidx _ _ hoff2 hco1, hidx _ _ hoff2 hco2]
    have hKperm := box_idx_perm offs coffs hoffs hcoffs (bA + cB * 3) (by omega)
    have hNperm := hKperm.map (fun x => nums.getD x 0)
    have hfin : ((([(3 * offs.getD 0 0 + coffs.getD 0 0 + (bA + cB * 3)) % 9,
        (3 * offs.getD 0 0 + coffs.getD 1 0 + (bA + cB * 3)) % 9,
        (3 * offs.getD 0 0 + coffs.getD 2 0 + (bA + cB * 3)) % 9,
        (3 * offs.getD 1 0 + coffs.getD 0 0 + (bA + cB * 3)) % 9,
        (3 * offs.getD 1 0 + coffs.getD 1 0 + (bA + cB * 3)) % 9,
        (3 * offs.getD 1 0 + coffs.getD 2 0 + (bA + cB * 3)) % 9,
        (3 * offs.getD 2 0 + coffs.getD 0 0 + (bA + cB * 3)) % 9,
        (3 * offs.getD 2 0 + coffs.getD 1 0 + (bA + cB * 3)) % 9,
        (3 * offs.getD 2 0 + coffs.getD 2 0 + (bA + cB * 3)) % 9] : List Nat).map
          (fun x => nums.getD x 0))).Perm ((List.range 9).map (· + 1)) := by
      refine hNperm.trans ?_
      rw [range9_map_getD nums hnl]
      exact hnums
    exact (hfin.count_eq v).trans (hdig v h1 h2)
  unfold sudokuEnergy
  rw [Nat.add_eq_zero]
  constructor
  · rw [column_conflicts_zero_iff]
    intro c v hv
    rw [Finset.mem_Icc] at hv
    exact le_of_eq (hcolcnt c v hv.1 hv.2)
  · rw [box_conflicts_zero_iff]
    intro A B v hv
    rw [Finset.mem_Icc] at hv
    exact le_of_eq (hboxcnt A B v hv.1 hv.2)

lemma generate_full_solution_energy (g : Rng) :
    sudokuEnergy (generate_full_solution g).1 = 0 := by
  unfold generate_full_solution
  dsimp only
  apply pattern_board_valid
  · exact bandExpand_perm _ _ (g.shuffleNat_perm _ _)
  · exact bandExpand_perm _ _ (Rng.shuffleNat_perm _ _ _)
  · exact Rng.shuffleNat_perm _ _ _
  · exact bandExpand_block _ _ (g.shuffleNat_perm _ _)
  · exact bandExpand_block _ _ (Rng.shuffleNat_perm _ _ _)

lemma solveLoop_zero (gv : Givens) (cooling : Rat) :
    ∀ fuel s, s.energy = 0 → solveLoop gv cooling fuel s = s := by
  intro fuel s h
  cases fuel with
  | zero => rfl
  | succ n => simp [solveLoop, h]

/-- C8: with holes = 0 with_random_holes removes nothing, so every one of
the 81 cells is a given and count_givens returns 81; the initial state of
solve is then the full generated solution, whose energy is zero, so the
loop breaks before consuming a step: steps = 0 and best_energy = 0. -/
theorem zero_holes_immediate_solution (g : Rng) (cfg : SamplerConfig) :
    count_givens (with_random_holes 0 g).1 = 81 ∧
    (solve (with_random_holes 0 g).1 cfg (with_random_holes 0 g).2).steps = 0 ∧
    (solve (with_random_holes 0 g).1 cfg (with_random_holes 0 g).2).bestE = 0 := by
  have hgv : (with_random_holes 0 g).1 =
      fun r c => some ((generate_full_solution g).1 r c) := by
    unfold with_random_holes
    dsimp only
    funext r c
    simp
  have hinit : ∀ g2 : Rng,
      (random_initial_state (with_random_holes 0 g).1 g2).1 =
        (generate_full_solution g).1 := by
    intro g2
    funext r c
    show buildRow (with_random_holes 0 g).1 r
        (g2.shuffleNat (g2.idx + r.val) (rowDigits (with_random_holes 0 g).1 r)) c =
      (generate_full_solution g).1 r c
    unfold buildRow
    rw [hgv]
    rfl
  have hE : (initS (with_random_holes 0 g).1 cfg (with_random_holes 0 g).2).energy = 0 := by
    show sudokuEnergy
      (random_initial_state (with_random_holes 0 g).1 (with_random_holes 0 g).2).1 = 0
    rw [hinit]
    exact generate_full_solution_energy g
  have hsolve : solve (with_random_holes 0 g).1 cfg (with_random_holes 0 g).2 =
      initS (with_random_holes 0 g).1 cfg (with_random_holes 0 g).2 := by
    unfold solve
    exact solveLoop_zero _ _ _ _ hE
  refine ⟨?_, ?_, ?_⟩
  · rw [count_givens, hgv]
    simp
  · rw [hsolve]
    rfl
  · rw [hsolve]
    exact hE
